import Mathlib

/-!
Verification of the logport severity classifier and the psl structured/console
encoder.  Go strings are modelled as lists of byte values (`List Nat`, each
element below 256 in practice); every definition below is translated from the
repository source (`classifyLogLine` and helpers from the logport package,
`writeConsole` / `writeStructured` and helpers from adapters/psl/psl.go),
together with the Go standard-library string primitives they call
(`strings.TrimSpace`, `unicode/utf8` decoding, JSON escaping).
-/

namespace Logport

/-- Byte strings: a Go string is a sequence of bytes. -/
abbrev ByteStr := List Nat

/-- Bytes of an ASCII string literal (for ASCII text the UTF-8 bytes are the
code points themselves; every literal passed to this helper is ASCII). -/
def str (s : String) : ByteStr := s.data.map Char.toNat

/-- Log levels, from the `Level` constants in logport.go. -/
inductive Level where
  | TraceLevel
  | DebugLevel
  | InfoLevel
  | WarnLevel
  | ErrorLevel
  | FatalLevel
  | PanicLevel
  | NoLevel
  | Disabled
deriving DecidableEq, Repr

/-- Go `toLowerASCII`: lower-case a single ASCII byte. -/
def toLowerASCII (b : Nat) : Nat := if 65 ≤ b ∧ b ≤ 90 then b + 32 else b

/-- Go `asciiEqualFold(s, t)`: equal length and each byte of `s` lower-cases
to the corresponding byte of `t`. -/
def asciiEqualFold : ByteStr → ByteStr → Bool
  | [], [] => true
  | a :: s, b :: t => toLowerASCII a == b && asciiEqualFold s t
  | _, _ => false

/-- Go `isDelimiter`: the delimiter/punctuation byte set trimmed from level
token candidates. -/
def isDelimiter (b : Nat) : Bool :=
  b == 32 || b == 9 || b == 13 || b == 10 || b == 58 || b == 124 || b == 45 ||
  b == 91 || b == 93 || b == 40 || b == 41 || b == 123 || b == 125 ||
  b == 60 || b == 62 || b == 59 || b == 46 || b == 44 || b == 34 || b == 39

/-- Trim `isDelimiter` bytes from both ends of a token, as the `start`/`end`
index loops of Go `levelFromToken` do. -/
def trimDelims (t : ByteStr) : ByteStr :=
  ((t.dropWhile isDelimiter).reverse.dropWhile isDelimiter).reverse

/-- Go `levelFromToken`: trim delimiters, then case-insensitive ASCII match
against the recognized token spellings. `none` models the `false` return. -/
def levelFromToken (token : ByteStr) : Option Level :=
  let normalized := trimDelims token
  if normalized = [] then none
  else if asciiEqualFold normalized (str "trace") || asciiEqualFold normalized (str "trc") then
    some .TraceLevel
  else if asciiEqualFold normalized (str "debug") || asciiEqualFold normalized (str "dbg") then
    some .DebugLevel
  else if asciiEqualFold normalized (str "info") || asciiEqualFold normalized (str "inf") ||
      asciiEqualFold normalized (str "information") then
    some .InfoLevel
  else if asciiEqualFold normalized (str "warn") || asciiEqualFold normalized (str "warning") ||
      asciiEqualFold normalized (str "wrn") then
    some .WarnLevel
  else if asciiEqualFold normalized (str "error") || asciiEqualFold normalized (str "err") then
    some .ErrorLevel
  else if asciiEqualFold normalized (str "fatal") || asciiEqualFold normalized (str "crit") ||
      asciiEqualFold normalized (str "critical") then
    some .FatalLevel
  else if asciiEqualFold normalized (str "panic") || asciiEqualFold normalized (str "alert") then
    some .PanicLevel
  else none

/-- The split byte set of Go `splitLeadingToken`: space, tab, colon, pipe,
hyphen. -/
def isSplitByte (b : Nat) : Bool := b == 32 || b == 9 || b == 58 || b == 124 || b == 45

/-- Go `splitLeadingToken`: split at the first space/tab/colon/pipe/hyphen;
the delimiter byte stays at the head of the remainder. -/
def splitLeadingToken : ByteStr → ByteStr × ByteStr
  | [] => ([], [])
  | b :: t =>
    if isSplitByte b then ([], b :: t)
    else
      let p := splitLeadingToken t
      (b :: p.1, p.2)

/-- Whether the lowered first five bytes spell `error` (the inner loop of Go
`indexErrorSubstring` at one position). -/
def hasErrorAtHead : ByteStr → Bool
  | a :: b :: c :: d :: e :: _ =>
    toLowerASCII a == 101 && toLowerASCII b == 114 && toLowerASCII c == 114 &&
    toLowerASCII d == 111 && toLowerASCII e == 114
  | _ => false

/-- Go `indexErrorSubstring`: index of the first case-insensitive occurrence
of `error`, `none` for the -1 return. -/
def indexErrorSubstring : ByteStr → Option Nat
  | [] => none
  | b :: t =>
    if hasErrorAtHead (b :: t) then some 0
    else (indexErrorSubstring t).map (· + 1)

/-- Go `strings.Index(s, "]")` specialised to a one-byte needle: index of the
first occurrence of byte `c`. -/
def indexOfByte : ByteStr → Nat → Option Nat
  | [], _ => none
  | b :: t, c => if b = c then some 0 else (indexOfByte t c).map (· + 1)

/-- Go `strings.IndexAny(s, ":|-")` (ASCII set, hence a byte search). -/
def indexAnySep : ByteStr → Option Nat
  | [] => none
  | b :: t =>
    if b = 58 || b = 124 || b = 45 then some 0
    else (indexAnySep t).map (· + 1)

/-- Go `strings.TrimLeft(s, cutset)` for an ASCII cutset: drop leading bytes
that belong to the cutset. -/
def trimLeftCut (s : ByteStr) (cut : List Nat) : ByteStr := s.dropWhile (cut.contains ·)

/-- Go `strings.TrimPrefix`. -/
def trimPfx (s p : ByteStr) : ByteStr := if p.isPrefixOf s then s.drop p.length else s

/-- UTF-8 continuation byte test (`0x80..0xBF`). -/
def isCont (b : Nat) : Bool := 128 ≤ b && b ≤ 191

/-- Second-byte acceptance range for a three-byte UTF-8 sequence, following
the `acceptRanges` table of Go `unicode/utf8`. -/
def accept3 (b0 b1 : Nat) : Bool :=
  if b0 == 224 then 160 ≤ b1 && b1 ≤ 191
  else if b0 == 237 then 128 ≤ b1 && b1 ≤ 159
  else isCont b1

/-- Second-byte acceptance range for a four-byte UTF-8 sequence. -/
def accept4 (b0 b1 : Nat) : Bool :=
  if b0 == 240 then 144 ≤ b1 && b1 ≤ 191
  else if b0 == 244 then 128 ≤ b1 && b1 ≤ 143
  else isCont b1

/-- Go `utf8.DecodeRuneInString`: returns (rune, size); any invalid or
incomplete encoding yields `(0xFFFD, 1)`, the empty string `(0xFFFD, 0)`. -/
def decodeRune : ByteStr → Nat × Nat
  | [] => (65533, 0)
  | b0 :: rest =>
    if b0 < 128 then (b0, 1)
    else if 194 ≤ b0 ∧ b0 ≤ 223 then
      match rest with
      | b1 :: _ =>
        if isCont b1 then ((b0 - 192) * 64 + (b1 - 128), 2) else (65533, 1)
      | [] => (65533, 1)
    else if 224 ≤ b0 ∧ b0 ≤ 239 then
      match rest with
      | b1 :: b2 :: _ =>
        if accept3 b0 b1 && isCont b2 then
          ((b0 - 224) * 4096 + (b1 - 128) * 64 + (b2 - 128), 3)
        else (65533, 1)
      | _ => (65533, 1)
    else if 240 ≤ b0 ∧ b0 ≤ 244 then
      match rest with
      | b1 :: b2 :: b3 :: _ =>
        if accept4 b0 b1 && isCont b2 && isCont b3 then
          ((b0 - 240) * 262144 + (b1 - 128) * 4096 + (b2 - 128) * 64 + (b3 - 128), 4)
        else (65533, 1)
      | _ => (65533, 1)
    else (65533, 1)

/-- Go `utf8.RuneStart`: not a continuation byte. -/
def isStart (b : Nat) : Bool := !(128 ≤ b && b ≤ 191)

/-- Decode from position `n - 1 - k` of `s` and require the rune to span
exactly the last `k + 1` bytes, as Go `DecodeLastRuneInString` does once it
has located a candidate start byte. -/
def lastRuneAt (s : ByteStr) (n k : Nat) : Nat × Nat :=
  let p := decodeRune (s.drop (n - 1 - k))
  if p.2 = k + 1 then p else (65533, 1)

/-- Go `utf8.DecodeLastRuneInString`: scan back at most four bytes for a
start byte; any failure yields `(0xFFFD, 1)`. -/
def decodeLastRune (s : ByteStr) : Nat × Nat :=
  let n := s.length
  if n = 0 then (65533, 0)
  else
    let last := s.getD (n - 1) 0
    if last < 128 then (last, 1)
    else if 2 ≤ n ∧ isStart (s.getD (n - 2) 0) then lastRuneAt s n 1
    else if 3 ≤ n ∧ isStart (s.getD (n - 3) 0) then lastRuneAt s n 2
    else if 4 ≤ n ∧ isStart (s.getD (n - 4) 0) then lastRuneAt s n 3
    else (65533, 1)

/-- Go `unicode.IsSpace` (the White_Space table). -/
def isSpaceRune (r : Nat) : Bool :=
  r == 9 || r == 10 || r == 11 || r == 12 || r == 13 || r == 32 ||
  r == 133 || r == 160 || r == 5760 || (8192 ≤ r && r ≤ 8202) ||
  r == 8232 || r == 8233 || r == 8239 || r == 8287 || r == 12288

/-- Fuel-driven loop of `trimLeftSpace`; the fuel is always at least the
length of the string, so the `0` case is never reached. -/
def trimLeftSpaceGo : Nat → ByteStr → ByteStr
  | 0, s => s
  | fuel + 1, s =>
    match s with
    | [] => []
    | b :: t =>
      if isSpaceRune (decodeRune (b :: t)).1 then
        trimLeftSpaceGo fuel ((b :: t).drop (decodeRune (b :: t)).2)
      else b :: t

/-- Drop leading Unicode-space runes, as Go `strings.TrimLeftFunc` with
`unicode.IsSpace` (an invalid byte decodes to `0xFFFD`, not a space, and
stops the scan). -/
def trimLeftSpace (s : ByteStr) : ByteStr := trimLeftSpaceGo s.length s

/-- Fuel-driven loop of `trimRightSpace`. -/
def trimRightSpaceGo : Nat → ByteStr → ByteStr
  | 0, s => s
  | fuel + 1, s =>
    if s = [] then []
    else if isSpaceRune (decodeLastRune s).1 then
      trimRightSpaceGo fuel (s.take (s.length - (decodeLastRune s).2))
    else s

/-- Drop trailing Unicode-space runes, as Go `strings.TrimRightFunc` with
`unicode.IsSpace`. -/
def trimRightSpace (s : ByteStr) : ByteStr := trimRightSpaceGo s.length s

/-- Go `strings.TrimSpace`: trim leading then trailing Unicode space (the Go
implementation's ASCII fast path delegates to exactly this rune-wise
behaviour on the first non-ASCII byte). -/
def trimSpace (s : ByteStr) : ByteStr := trimRightSpace (trimLeftSpace s)

/-- The fixed prefix of the TLS handshake special case in `classifyLogLine`. -/
def httpTLSHandshakePfx : ByteStr := str "http: TLS handshake error"

/-- The bracketed-token rule of `classifyLogLine` (`[LEVEL] message`);
`none` models falling through to the next rule. -/
def bracketRule (t : ByteStr) : Option (Level × ByteStr) :=
  if t.head? = some 91 then
    match indexOfByte t 93 with
    | some idx =>
      if 1 < idx then
        match levelFromToken ((t.drop 1).take (idx - 1)) with
        | some level => some (level, trimSpace (t.drop (idx + 1)))
        | none => none
      else none
    | none => none
  else none

/-- The leading-bare-token rule of `classifyLogLine`. -/
def leadingTokenRule (t : ByteStr) : Option (Level × ByteStr) :=
  match levelFromToken (splitLeadingToken t).1 with
  | some level =>
    let msg := trimLeftCut (splitLeadingToken t).2 [32, 9]
    let msg := trimPfx msg [58]
    let msg := trimLeftCut msg [32, 9, 45, 124, 58]
    some (level, trimSpace msg)
  | none => none

/-- The token-before-the-first-`:`/`|`/`-` rule of `classifyLogLine`. -/
def delimTokenRule (t : ByteStr) : Option (Level × ByteStr) :=
  match indexAnySep t with
  | some idx =>
    if 0 < idx then
      match levelFromToken (t.take idx) with
      | some level => some (level, trimSpace (t.drop (idx + 1)))
      | none => none
    else none
  | none => none

/-- The case-insensitive `error` substring fallback of `classifyLogLine`. -/
def errorFallback (t : ByteStr) : Option (Level × ByteStr) :=
  match indexErrorSubstring t with
  | some idx =>
    let msg :=
      if idx + 5 < t.length then trimLeftCut (trimSpace (t.drop (idx + 5))) [58, 32]
      else []
    some (.ErrorLevel, if msg = [] then t else msg)
  | none => none

/-- The body of Go `classifyLogLine` after the initial `strings.TrimSpace`,
with each early-return rule tried in source order. -/
def classifyTrimmed (t : ByteStr) : Level × ByteStr :=
  if t = [] then (.NoLevel, [])
  else if httpTLSHandshakePfx.isPrefixOf t then
    (.ErrorLevel, trimLeftCut (trimSpace (t.drop httpTLSHandshakePfx.length)) [58, 32])
  else
    match bracketRule t with
    | some r => r
    | none =>
      match leadingTokenRule t with
      | some r => r
      | none =>
        match delimTokenRule t with
        | some r => r
        | none =>
          match errorFallback t with
          | some r => r
          | none => (.NoLevel, t)

/-- Go `classifyLogLine(raw)`. -/
def classifyLogLine (raw : ByteStr) : Level × ByteStr := classifyTrimmed (trimSpace raw)

example : classifyLogLine (str "request failed with unexpected ERROR code 42") =
    (.ErrorLevel, str "code 42") := by decide

example : classifyLogLine (str "http: TLS handshake error from 1.2.3.4: remote error: tls: bad certificate") =
    (.ErrorLevel, str "from 1.2.3.4: remote error: tls: bad certificate") := by decide

example : classifyLogLine (str "  [WARN] disk almost full  ") =
    (.WarnLevel, str "disk almost full") := by decide

example : classifyLogLine (str "info: -v flag") = (.InfoLevel, str "v flag") := by decide

example : classifyLogLine (str "plain message without level metadata") =
    (.NoLevel, str "plain message without level metadata") := by decide

/-! ## The psl structured/console encoder (adapters/psl/psl.go) -/

/-- The modelled subset of Go `any`-typed field values.
`vstr` is a plain `string`; `vint` an `int64` (the other integer widths
behave identically up to conversion); `vbool` a `bool`.
`vstringer s` is a `fmt.Stringer` whose `String()` renders the bytes `s`
(`error` and `time.Time` values take arms of the same shape: the rendered
text goes through the quote-or-copy console path and through
`appendJSONString` in structured mode).
`vmarshaler m cs` is a `json.Marshaler` that implements none of the earlier
arms' interfaces: `MarshalJSON()` returns the bytes `m` (written raw by
`writeJSONRaw`/`writeJSONRawPlain`), and `fmt.Sprint` renders the bytes `cs`
(the `default:` arm of `formatConsoleValue` copies them raw).
`json.Number` has a `String() string` method, so both type switches catch it
at `case fmt.Stringer` before the dedicated raw `json.Number` arm and it
behaves as `vstringer`.  A `default:`-arm value that is no `json.Marshaler`
is rendered raw by `fmt.Sprint` on the console like `cs`, while structured
mode passes it through `json.Marshal`, whose output escapes control bytes;
any such pair of renderings is realized by a `vmarshaler`. -/
inductive Value where
  | vstr (s : ByteStr)
  | vint (i : Int)
  | vbool (b : Bool)
  | vstringer (s : ByteStr)
  | vmarshaler (m cs : ByteStr)
deriving DecidableEq, Repr

/-- A key/value pair, Go type `kv`. -/
structure KV where
  key : ByteStr
  value : Value
deriving DecidableEq, Repr

def ansiReset : ByteStr := [27] ++ str "[0m"
def ansiBold : ByteStr := [27] ++ str "[1m"
def ansiFaint : ByteStr := [27] ++ str "[90m"
def ansiRed : ByteStr := [27] ++ str "[31m"
def ansiGreen : ByteStr := [27] ++ str "[32m"
def ansiYellow : ByteStr := [27] ++ str "[33m"
def ansiBlue : ByteStr := [27] ++ str "[34m"
def ansiMagenta : ByteStr := [27] ++ str "[35m"
def ansiCyan : ByteStr := [27] ++ str "[36m"
def ansiBrightRed : ByteStr := [27] ++ str "[1;31m"
def ansiBrightGreen : ByteStr := [27] ++ str "[1;32m"
def ansiBrightYellow : ByteStr := [27] ++ str "[1;33m"

/-- Go `needsQuote`: true when some byte is a space, a backslash, a double
quote, below 0x20 or above 0x7e. -/
def needsQuote (s : ByteStr) : Bool :=
  s.any (fun c => c < 32 || 126 < c || c == 32 || c == 92 || c == 34)

/-- The `hexDigits` table of psl.go. -/
def hexDigits : ByteStr := str "0123456789abcdef"

/-- Reversed decimal digit bytes of a positive natural number (fuel-driven). -/
def natDigitsRev : Nat → Nat → ByteStr
  | 0, _ => []
  | fuel + 1, n => if n = 0 then [] else (48 + n % 10) :: natDigitsRev fuel (n / 10)

/-- Decimal digits of a natural number. -/
def natToDecimal (n : Nat) : ByteStr := if n = 0 then [48] else (natDigitsRev n n).reverse

/-- Go `strconv.AppendInt(buf, n, 10)` digits (decimal, `-` sign). -/
def intToDecimal : Int → ByteStr
  | .ofNat n => natToDecimal n
  | .negSucc n => 45 :: natToDecimal (n + 1)

/-- The escaped form of one decoded rune in the slow path of Go
`appendJSONString` (the `switch` over `r`), including the unreachable
`r == utf8.RuneError && size == 1` arm, which the guard of the fast path
(`r >= 0x20`) prevents from ever running. -/
def jsonEscape (r size : Nat) (raw : ByteStr) : ByteStr :=
  if r = 34 || r = 92 then [92, r]
  else if r = 8 then [92, 98]
  else if r = 12 then [92, 102]
  else if r = 10 then [92, 110]
  else if r = 13 then [92, 114]
  else if r = 9 then [92, 116]
  else if r < 32 then [92, 117, 48, 48, hexDigits.getD (r / 16) 0, hexDigits.getD (r % 16) 0]
  else if r = 65533 ∧ size = 1 then str "\x5cufffd"
  else raw.take size

/-- Fuel-driven body of Go `appendJSONString`: decode a rune; runes at or
above 0x20 other than `"` and `\` are copied verbatim (this is where an
invalid byte, decoding to `(0xFFFD, 1)`, falls through unescaped), the rest
go through `jsonEscape`. -/
def appendJSONStringGo : Nat → ByteStr → ByteStr
  | 0, _ => []
  | fuel + 1, s =>
    match s with
    | [] => []
    | b :: t =>
      let r := (decodeRune (b :: t)).1
      let size := (decodeRune (b :: t)).2
      if 32 ≤ r ∧ r ≠ 34 ∧ r ≠ 92 then
        (b :: t).take size ++ appendJSONStringGo fuel ((b :: t).drop size)
      else
        jsonEscape r size (b :: t) ++ appendJSONStringGo fuel ((b :: t).drop size)

/-- Go `appendJSONString(buf, s)`: surrounding quotes plus escaped body. -/
def appendJSONString (buf s : ByteStr) : ByteStr :=
  buf ++ [34] ++ appendJSONStringGo s.length s ++ [34]

/-- The escaped form of one rune under Go `strconv.Quote`.  Modelled from
`strconv.quoteWith`; the one deviation is that printable non-ASCII runes are
emitted as `\u`/`\U` escapes instead of raw bytes (Go consults its Unicode
printability tables there).  Every property proved below about quoted output
(absence of control bytes) holds for both behaviours, since raw bytes of a
multi-byte rune are all at or above 0x80. -/
def quoteEscape (r size : Nat) (raw : ByteStr) : ByteStr :=
  if r = 65533 ∧ size = 1 then
    [92, 120, hexDigits.getD (raw.headD 0 / 16) 0, hexDigits.getD (raw.headD 0 % 16) 0]
  else if r = 34 ∨ r = 92 then [92, r]
  else if 32 ≤ r ∧ r ≤ 126 then [r]
  else if r = 7 then [92, 97]
  else if r = 8 then [92, 98]
  else if r = 12 then [92, 102]
  else if r = 10 then [92, 110]
  else if r = 13 then [92, 114]
  else if r = 9 then [92, 116]
  else if r = 11 then [92, 118]
  else if r < 32 ∨ r = 127 then [92, 120, hexDigits.getD (r / 16) 0, hexDigits.getD (r % 16) 0]
  else if r < 65536 then
    [92, 117, hexDigits.getD (r / 4096 % 16) 0, hexDigits.getD (r / 256 % 16) 0,
      hexDigits.getD (r / 16 % 16) 0, hexDigits.getD (r % 16) 0]
  else
    [92, 85] ++ (List.range 8).reverse.map (fun k => hexDigits.getD (r / 16 ^ k % 16) 0)

/-- Fuel-driven body of the `strconv.Quote` model. -/
def goQuoteGo : Nat → ByteStr → ByteStr
  | 0, _ => []
  | fuel + 1, s =>
    match s with
    | [] => []
    | b :: t =>
      quoteEscape (decodeRune (b :: t)).1 (decodeRune (b :: t)).2 (b :: t) ++
        goQuoteGo fuel ((b :: t).drop (decodeRune (b :: t)).2)

/-- Go `strconv.Quote` (see `quoteEscape` for the one documented deviation). -/
def goQuote (s : ByteStr) : ByteStr := [34] ++ goQuoteGo s.length s ++ [34]

/-- Go `formatConsoleValue` on the modelled value subset.  An `int64` and a
`bool` fall to the `default:` arm, where `fmt.Sprint` renders them in
decimal and as `true`/`false`; a `json.Marshaler` without a `String`/`Error`
method also falls to `default:` and its `fmt.Sprint` rendering is copied
raw, with no quoting. -/
def formatConsoleValue : Value → ByteStr
  | .vstr s => if needsQuote s then goQuote s else s
  | .vint i => intToDecimal i
  | .vbool b => if b then str "true" else str "false"
  | .vstringer s => if needsQuote s then goQuote s else s
  | .vmarshaler _ cs => cs

/-- Whether the raw byte strings a field value can inject verbatim into the
output (the `MarshalJSON` bytes and the `fmt.Sprint` rendering of a
`json.Marshaler`) are free of the ANSI escape byte 0x1b. -/
def valueRawNoEsc : Value → Bool
  | .vmarshaler m cs => m.all (fun b => b ≠ 27) && cs.all (fun b => b ≠ 27)
  | _ => true

/-- Go `shouldHighlight`. -/
def shouldHighlight : Level → Bool
  | .InfoLevel | .WarnLevel | .ErrorLevel | .FatalLevel | .PanicLevel => true
  | _ => false

/-- Go `consoleLevel`: the three-letter code and its ANSI color (empty color
for the colorless cases; `Disabled` takes the `default` arm). -/
def consoleLevel : Level → ByteStr × ByteStr
  | .TraceLevel => (str "TRC", ansiBlue)
  | .DebugLevel => (str "DBG", [])
  | .InfoLevel => (str "INF", ansiGreen)
  | .WarnLevel => (str "WRN", ansiYellow)
  | .ErrorLevel => (str "ERR", ansiRed)
  | .FatalLevel => (str "FTL", ansiRed)
  | .PanicLevel => (str "PNC", ansiRed)
  | .NoLevel => (str "---", [])
  | .Disabled => (str "INF", ansiGreen)

/-- Go `structuredLevel`. -/
def structuredLevel : Level → ByteStr
  | .TraceLevel => str "trace"
  | .DebugLevel => str "debug"
  | .InfoLevel => str "info"
  | .WarnLevel => str "warn"
  | .ErrorLevel => str "error"
  | .FatalLevel => str "fatal"
  | .PanicLevel => str "panic"
  | .NoLevel => str "nolevel"
  | .Disabled => str "disabled"

/-- Go `writeConsole`. -/
def writeConsole (buf : ByteStr) (level : Level) (msg : ByteStr) (fields : List KV)
    (timestamp : ByteStr) (includeTime color : Bool) : ByteStr :=
  let buf :=
    if includeTime then
      (if color then buf ++ ansiFaint ++ timestamp ++ ansiReset else buf ++ timestamp) ++ [32]
    else buf
  let ls := consoleLevel level
  let buf := if color && ls.2 ≠ [] then buf ++ ls.2 ++ ls.1 ++ ansiReset else buf ++ ls.1
  let buf :=
    if msg ≠ [] then
      if color && shouldHighlight level then buf ++ [32] ++ ansiBold ++ msg ++ ansiReset
      else buf ++ [32] ++ msg
    else buf
  fields.foldl
    (fun buf f =>
      let buf := buf ++ [32]
      let buf :=
        if color then buf ++ ansiCyan ++ f.key ++ [61] ++ ansiReset
        else buf ++ f.key ++ [61]
      buf ++ formatConsoleValue f.value)
    buf

/-- Go `fieldNames`: configurable key names for time/level/message plus the
precomputed `"key":"` prefixes (`none` models a nil slice). -/
structure FieldNames where
  time : ByteStr
  level : ByteStr
  message : ByteStr
  timePfx : Option ByteStr
  levelPfx : Option ByteStr
  messagePfx : Option ByteStr

/-- Go `shortFieldNames`. -/
def shortFieldNames : FieldNames :=
  ⟨str "ts", str "lvl", str "msg",
    some (str "\x22ts\x22:\x22"), some (str "\x22lvl\x22:\x22"), some (str "\x22msg\x22:\x22")⟩

/-- Go `verboseFieldNames`. -/
def verboseFieldNames : FieldNames :=
  ⟨str "time", str "level", str "message",
    some (str "\x22time\x22:\x22"), some (str "\x22level\x22:\x22"),
    some (str "\x22message\x22:\x22")⟩

/-- Go `appendSafeStringField`: comma separator, then either a precomputed
prefix for the six well-known keys or fully escaped key and value. -/
def appendSafeStringField (buf key value : ByteStr) (first : Bool) : ByteStr :=
  let buf := if !first then buf ++ [44] else buf
  if key = str "time" then buf ++ str "\x22time\x22:\x22" ++ value ++ [34]
  else if key = str "ts" then buf ++ str "\x22ts\x22:\x22" ++ value ++ [34]
  else if key = str "level" then buf ++ str "\x22level\x22:\x22" ++ value ++ [34]
  else if key = str "lvl" then buf ++ str "\x22lvl\x22:\x22" ++ value ++ [34]
  else if key = str "msg" then buf ++ str "\x22msg\x22:\x22" ++ value ++ [34]
  else if key = str "message" then buf ++ str "\x22message\x22:\x22" ++ value ++ [34]
  else appendJSONString (appendJSONString buf key ++ [58]) value

/-- Go `appendFastStringField`: raw value after a precomputed key prefix,
falling back to `appendSafeStringField` when the prefix is nil. -/
def appendFastStringField (buf key : ByteStr) (pfx : Option ByteStr) (value : ByteStr)
    (first : Bool) : ByteStr :=
  match pfx with
  | none => appendSafeStringField buf key value first
  | some p => (if !first then buf ++ [44] else buf) ++ p ++ value ++ [34]

/-- Go `appendQuotedField`: escaped key and escaped value. -/
def appendQuotedField (buf key value : ByteStr) (first : Bool) : ByteStr :=
  appendJSONString (appendJSONString (if !first then buf ++ [44] else buf) key ++ [58]) value

/-- Go `writeJSONKey`. -/
def writeJSONKey (buf key : ByteStr) (color : Bool) : ByteStr :=
  if color then appendJSONString (buf ++ ansiCyan) key ++ ansiReset
  else appendJSONString buf key

/-- Go `writeJSONString(buf, s, color, dim)`. -/
def writeJSONString (buf s : ByteStr) (color dim : Bool) : ByteStr :=
  if color then
    (if !dim then buf ++ ansiGreen else buf) ++ [34] ++ appendJSONStringGo s.length s ++ [34] ++ ansiReset
  else appendJSONString buf s

/-- Go `writeJSONNumber` (int64, decimal). -/
def writeJSONNumber (buf : ByteStr) (n : Int) (color : Bool) : ByteStr :=
  if color then buf ++ ansiMagenta ++ intToDecimal n ++ ansiReset
  else buf ++ intToDecimal n

/-- Go `writeJSONValuePlain` on the modelled value subset: a `fmt.Stringer`
is escaped like a string, a `json.Marshaler` has its `MarshalJSON` bytes
appended raw by `writeJSONRawPlain`. -/
def writeJSONValuePlain (buf : ByteStr) : Value → ByteStr
  | .vstr s => appendJSONString buf s
  | .vint i => buf ++ intToDecimal i
  | .vbool b => buf ++ (if b then str "true" else str "false")
  | .vstringer s => appendJSONString buf s
  | .vmarshaler m _ => buf ++ m

/-- Go `writeJSONValue` on the modelled value subset. -/
def writeJSONValue (buf : ByteStr) (v : Value) (color : Bool) : ByteStr :=
  if !color then writeJSONValuePlain buf v
  else
    match v with
    | .vstr s => writeJSONString buf s true true
    | .vbool b => buf ++ ansiYellow ++ (if b then str "true" else str "false") ++ ansiReset
    | .vint i => writeJSONNumber buf i true
    | .vstringer s => writeJSONString buf s true true
    | .vmarshaler m _ => buf ++ ansiMagenta ++ m ++ ansiReset

/-- Go `writeJSONLevelValue` (the non-color arm is
`strconv.AppendQuote(buf, val)`). -/
def writeJSONLevelValue (buf : ByteStr) (level : Level) (color : Bool) : ByteStr :=
  if color then
    let c :=
      match level with
      | .InfoLevel => ansiBrightGreen
      | .WarnLevel => ansiBrightYellow
      | .ErrorLevel | .FatalLevel | .PanicLevel => ansiBrightRed
      | .TraceLevel => ansiBlue
      | _ => ansiFaint
    buf ++ c ++ goQuote (structuredLevel level) ++ ansiReset
  else buf ++ goQuote (structuredLevel level)

/-- Go `writeJSONMessageValue`. -/
def writeJSONMessageValue (buf value : ByteStr) (color : Bool) : ByteStr :=
  if color then buf ++ ansiBold ++ [34] ++ appendJSONStringGo value.length value ++ [34] ++ ansiReset
  else appendJSONString buf value

/-- Go `fmt.Sprint` on the modelled value subset (the message `default`
arm of `writePair`). -/
def sprintValue : Value → ByteStr
  | .vstr s => s
  | .vint i => intToDecimal i
  | .vbool b => if b then str "true" else str "false"
  | .vstringer s => s
  | .vmarshaler _ cs => cs

/-- The kinds distinguished by `writePair` in Go `writeStructured`. -/
inductive JsonValueKind where
  | default
  | level
  | message

/-- The `writePair` closure of Go `writeStructured`. -/
def writePair (buf : ByteStr) (first : Bool) (level : Level) (colored : Bool)
    (key : ByteStr) (value : Value) (kind : JsonValueKind) : ByteStr :=
  let buf := if !first then buf ++ [44] else buf
  let buf := writeJSONKey buf key colored ++ [58]
  match kind with
  | .level => writeJSONLevelValue buf level colored
  | .message =>
    match value with
    | .vstr v => writeJSONMessageValue buf v colored
    | v => writeJSONMessageValue buf (sprintValue v) colored
  | .default => writeJSONValue buf value colored

/-- The no-fields, no-color fast path of Go `writeStructured`. -/
def writeStructuredFast (buf : ByteStr) (level : Level) (msg timestamp : ByteStr)
    (includeTime : Bool) (names : FieldNames) : ByteStr :=
  let buf := buf ++ [123]
  let buf :=
    if includeTime then appendFastStringField buf names.time names.timePfx timestamp true
    else buf
  let buf := appendFastStringField buf names.level names.levelPfx (structuredLevel level) (!includeTime)
  let buf :=
    if msg ≠ [] then
      if needsQuote msg then appendQuotedField buf names.message msg false
      else appendFastStringField buf names.message names.messagePfx msg false
    else buf
  buf ++ [125]

/-- Go `writeStructured`: the fast path when no fields and no color, the
`writePair` path otherwise; time uses the names' time key (subject to
`includeTime`), then level, then message when non-empty, then every field in
input order. -/
def writeStructured (buf : ByteStr) (level : Level) (msg : ByteStr) (fields : List KV)
    (timestamp : ByteStr) (includeTime : Bool) (names : FieldNames)
    (colorJSON colorEnabled : Bool) : ByteStr :=
  let colored := colorJSON && colorEnabled
  if !colored && fields.isEmpty then
    writeStructuredFast buf level msg timestamp includeTime names
  else
    let buf := buf ++ [123]
    let buf :=
      if includeTime then writePair buf true level colored names.time (.vstr timestamp) .default
      else buf
    let buf := writePair buf (!includeTime) level colored names.level (.vstr (structuredLevel level)) .level
    let buf :=
      if msg ≠ [] then writePair buf false level colored names.message (.vstr msg) .message
      else buf
    let buf := fields.foldl (fun buf f => writePair buf false level colored f.key f.value .default) buf
    buf ++ [125]

/-- Fuel-driven loop of `validUtf8`. -/
def validUtf8Go : Nat → ByteStr → Bool
  | 0, s => s.isEmpty
  | fuel + 1, s =>
    match s with
    | [] => true
    | b :: t =>
      if (decodeRune (b :: t)).1 = 65533 ∧ (decodeRune (b :: t)).2 = 1 then false
      else validUtf8Go fuel ((b :: t).drop (decodeRune (b :: t)).2)

/-- Whether a byte sequence is valid UTF-8 (Go `utf8.ValidString`): decoding
never produces the `(0xFFFD, 1)` invalid-encoding result.  A JSON text must
be valid UTF-8 (RFC 8259 §8.1), so a line failing this is not valid JSON. -/
def validUtf8 (s : ByteStr) : Bool := validUtf8Go s.length s

example :
    writeStructured [] .InfoLevel (str "ready") [] [] false verboseFieldNames false false =
      str "\x7b\x22level\x22:\x22info\x22,\x22message\x22:\x22ready\x22\x7d" := by decide

example :
    writeStructured [] .InfoLevel (str "hi") [⟨str "a", .vint 42⟩] [] false shortFieldNames false false =
      str "\x7b\x22lvl\x22:\x22info\x22,\x22msg\x22:\x22hi\x22,\x22a\x22:42\x7d" := by decide

example :
    writeConsole [] .InfoLevel (str "ready") [⟨str "foo", .vstr (str "bar")⟩,
        ⟨str "greeting", .vstr (str "hello world")⟩] [] false false =
      str "INF ready foo=bar greeting=\x22hello world\x22" := by decide

example : appendJSONString [] [255] = [34, 255, 34] := by decide

/-! ## A standard JSON string decoder (specification side, RFC 8259)

Used to state the round-trip properties: it handles the escape sequences of
RFC 8259 §7 (including `\uXXXX` with surrogate pairs), rejects unescaped
control characters, and rejects input that is not valid UTF-8 (a JSON text
must be UTF-8-encoded, RFC 8259 §8.1). -/

/-- UTF-8 encoding of a code point (specification side). -/
def utf8Encode (r : Nat) : ByteStr :=
  if r < 128 then [r]
  else if r < 2048 then [192 + r / 64, 128 + r % 64]
  else if r < 65536 then [224 + r / 4096, 128 + r / 64 % 64, 128 + r % 64]
  else [240 + r / 262144, 128 + r / 4096 % 64, 128 + r / 64 % 64, 128 + r % 64]

/-- Value of one hexadecimal digit byte. -/
def hexVal (b : Nat) : Option Nat :=
  if 48 ≤ b ∧ b ≤ 57 then some (b - 48)
  else if 97 ≤ b ∧ b ≤ 102 then some (b - 87)
  else if 65 ≤ b ∧ b ≤ 70 then some (b - 55)
  else none

/-- Value of a four-hex-digit group. -/
def hex4 (a b c d : Nat) : Option Nat :=
  match hexVal a, hexVal b, hexVal c, hexVal d with
  | some x, some y, some z, some w => some (x * 4096 + y * 256 + z * 16 + w)
  | _, _, _, _ => none

/-- Decode the body of a JSON string up to and past the closing quote,
returning the decoded bytes and the remaining input.  Fuel-driven; each step
consumes at least one byte. -/
def decodeJSONBody : Nat → ByteStr → Option (ByteStr × ByteStr)
  | 0, _ => none
  | fuel + 1, s =>
    match s with
    | [] => none
    | b :: t =>
      if b = 34 then some ([], t)
      else if b = 92 then
        match t with
        | [] => none
        | e :: rest =>
          if e = 34 then (decodeJSONBody fuel rest).map (fun p => (34 :: p.1, p.2))
          else if e = 92 then (decodeJSONBody fuel rest).map (fun p => (92 :: p.1, p.2))
          else if e = 47 then (decodeJSONBody fuel rest).map (fun p => (47 :: p.1, p.2))
          else if e = 98 then (decodeJSONBody fuel rest).map (fun p => (8 :: p.1, p.2))
          else if e = 102 then (decodeJSONBody fuel rest).map (fun p => (12 :: p.1, p.2))
          else if e = 110 then (decodeJSONBody fuel rest).map (fun p => (10 :: p.1, p.2))
          else if e = 114 then (decodeJSONBody fuel rest).map (fun p => (13 :: p.1, p.2))
          else if e = 116 then (decodeJSONBody fuel rest).map (fun p => (9 :: p.1, p.2))
          else if e = 117 then
            match rest with
            | h1 :: h2 :: h3 :: h4 :: rest4 =>
              match hex4 h1 h2 h3 h4 with
              | none => none
              | some cp =>
                if 55296 ≤ cp ∧ cp ≤ 56319 then
                  match rest4 with
                  | 92 :: 117 :: g1 :: g2 :: g3 :: g4 :: rest2 =>
                    match hex4 g1 g2 g3 g4 with
                    | some lo =>
                      if 56320 ≤ lo ∧ lo ≤ 57343 then
                        (decodeJSONBody fuel rest2).map
                          (fun p =>
                            (utf8Encode (65536 + (cp - 55296) * 1024 + (lo - 56320)) ++ p.1, p.2))
                      else none
                    | none => none
                  | _ => none
                else if 56320 ≤ cp ∧ cp ≤ 57343 then none
                else (decodeJSONBody fuel rest4).map (fun p => (utf8Encode cp ++ p.1, p.2))
            | _ => none
          else none
      else if b < 32 then none
      else if (decodeRune (b :: t)).1 = 65533 ∧ (decodeRune (b :: t)).2 = 1 then none
      else
        (decodeJSONBody fuel ((b :: t).drop (decodeRune (b :: t)).2)).map
          (fun p => ((b :: t).take (decodeRune (b :: t)).2 ++ p.1, p.2))

/-- Decode a complete JSON string literal: opening quote, body, closing
quote, nothing after. -/
def jsonDecodeString (s : ByteStr) : Option ByteStr :=
  match s with
  | 34 :: rest =>
    match decodeJSONBody s.length rest with
    | some (content, []) => some content
    | _ => none
  | _ => none

example : jsonDecodeString (appendJSONString [] (str "a\n\tb\x22c\x5cd")) =
    some (str "a\n\tb\x22c\x5cd") := by decide

example : jsonDecodeString (appendJSONString [] [34, 92, 10, 9, 0, 97]) =
    some [34, 92, 10, 9, 0, 97] := by decide

example : jsonDecodeString (appendJSONString [] [34, 92, 10, 9, 0, 255]) = none := by decide

example : validUtf8 (writeStructured [] .InfoLevel (str "m") [⟨str "k", .vstr [255]⟩]
    [] false verboseFieldNames false false) = false := by decide

/-! ## Basic facts about the UTF-8 decoder -/

theorem decodeRune_cons_snd_pos (b : Nat) (t : ByteStr) : 1 ≤ (decodeRune (b :: t)).2 := by
  simp only [decodeRune]
  (repeat' split) <;> simp

theorem decodeRune_snd_le_length : ∀ s : ByteStr, (decodeRune s).2 ≤ s.length
  | [] => by simp [decodeRune]
  | b :: t => by
    simp only [decodeRune]
    (repeat' split) <;> simp_all <;> omega

theorem decodeRune_one (b : Nat) (t : ByteStr) (h : b < 128) : decodeRune (b :: t) = (b, 1) := by
  simp [decodeRune, h]

theorem decodeRune_two (b0 b1 : Nat) (t : ByteStr) (h0 : 194 ≤ b0) (h0' : b0 ≤ 223)
    (h1 : isCont b1 = true) :
    decodeRune (b0 :: b1 :: t) = ((b0 - 192) * 64 + (b1 - 128), 2) := by
  have hn : ¬b0 < 128 := by omega
  simp [decodeRune, hn, h0, h0', h1]

theorem decodeRune_three (b0 b1 b2 : Nat) (t : ByteStr) (h0 : 224 ≤ b0) (h0' : b0 ≤ 239)
    (h1 : accept3 b0 b1 = true) (h2 : isCont b2 = true) :
    decodeRune (b0 :: b1 :: b2 :: t) =
      ((b0 - 224) * 4096 + (b1 - 128) * 64 + (b2 - 128), 3) := by
  have hn : ¬b0 < 128 := by omega
  have hn2 : ¬(194 ≤ b0 ∧ b0 ≤ 223) := by omega
  simp [decodeRune, hn, hn2, h0, h0', h1, h2]

theorem decodeRune_four (b0 b1 b2 b3 : Nat) (t : ByteStr) (h0 : 240 ≤ b0) (h0' : b0 ≤ 244)
    (h1 : accept4 b0 b1 = true) (h2 : isCont b2 = true) (h3 : isCont b3 = true) :
    decodeRune (b0 :: b1 :: b2 :: b3 :: t) =
      ((b0 - 240) * 262144 + (b1 - 128) * 4096 + (b2 - 128) * 64 + (b3 - 128), 4) := by
  have hn : ¬b0 < 128 := by omega
  have hn2 : ¬(194 ≤ b0 ∧ b0 ≤ 223) := by omega
  have hn3 : ¬(224 ≤ b0 ∧ b0 ≤ 239) := by omega
  simp [decodeRune, hn, hn2, hn3, h0, h0', h1, h2, h3]

theorem decodeRune_size_one {s : ByteStr} {r : Nat} (h : decodeRune s = (r, 1))
    (hv : r ≠ 65533) : ∃ t, s = r :: t ∧ r < 128 := by
  rcases s with _ | ⟨b0, rest⟩ <;>
    simp only [decodeRune] at h <;>
    (repeat' split at h) <;>
    simp only [Prod.mk.injEq] at h <;>
    first
      | omega
      | exact ⟨_, by rw [h.1], by omega⟩

theorem decodeRune_size_two {s : ByteStr} {r : Nat} (h : decodeRune s = (r, 2)) :
    ∃ b0 b1 t, s = b0 :: b1 :: t ∧ 194 ≤ b0 ∧ b0 ≤ 223 ∧ isCont b1 = true ∧
      r = (b0 - 192) * 64 + (b1 - 128) := by
  rcases s with _ | ⟨b0, rest⟩ <;>
    simp only [decodeRune] at h <;>
    (repeat' split at h) <;>
    simp only [Prod.mk.injEq] at h <;>
    first
      | omega
      | exact ⟨_, _, _, rfl, by omega, by omega, by assumption, by omega⟩

theorem decodeRune_size_three {s : ByteStr} {r : Nat} (h : decodeRune s = (r, 3)) :
    ∃ b0 b1 b2 t, s = b0 :: b1 :: b2 :: t ∧ 224 ≤ b0 ∧ b0 ≤ 239 ∧
      accept3 b0 b1 = true ∧ isCont b2 = true ∧
      r = (b0 - 224) * 4096 + (b1 - 128) * 64 + (b2 - 128) := by
  rcases s with _ | ⟨b0, rest⟩ <;>
    simp only [decodeRune] at h <;>
    (repeat' split at h) <;>
    simp only [Prod.mk.injEq] at h <;>
    first
      | omega
      | exact ⟨_, _, _, _, rfl, by omega, by omega, by simp_all, by simp_all, by omega⟩

theorem decodeRune_size_four {s : ByteStr} {r : Nat} (h : decodeRune s = (r, 4)) :
    ∃ b0 b1 b2 b3 t, s = b0 :: b1 :: b2 :: b3 :: t ∧ 240 ≤ b0 ∧ b0 ≤ 244 ∧
      accept4 b0 b1 = true ∧ isCont b2 = true ∧ isCont b3 = true ∧
      r = (b0 - 240) * 262144 + (b1 - 128) * 4096 + (b2 - 128) * 64 + (b3 - 128) := by
  rcases s with _ | ⟨b0, rest⟩ <;>
    simp only [decodeRune] at h <;>
    (repeat' split at h) <;>
    simp only [Prod.mk.injEq] at h <;>
    first
      | omega
      | exact ⟨_, _, _, _, _, rfl, by omega, by omega, by simp_all, by simp_all,
          by simp_all, by omega⟩

theorem decodeRune_snd_cases (s : ByteStr) :
    (decodeRune s).2 = 0 ∨ (decodeRune s).2 = 1 ∨ (decodeRune s).2 = 2 ∨
      (decodeRune s).2 = 3 ∨ (decodeRune s).2 = 4 := by
  rcases s with _ | ⟨b0, rest⟩ <;> simp only [decodeRune] <;> (repeat' split) <;> simp

theorem isCont_iff {b : Nat} : isCont b = true ↔ 128 ≤ b ∧ b ≤ 191 := by
  simp [isCont]

theorem accept3_bounds {b0 b1 : Nat} (h : accept3 b0 b1 = true) :
    128 ≤ b1 ∧ b1 ≤ 191 ∧ (b0 = 224 → 160 ≤ b1) := by
  simp only [accept3] at h
  split at h <;> [skip; split at h] <;> simp_all [isCont] <;> omega

theorem accept4_bounds {b0 b1 : Nat} (h : accept4 b0 b1 = true) :
    128 ≤ b1 ∧ b1 ≤ 191 ∧ (b0 = 240 → 144 ≤ b1) := by
  simp only [accept4] at h
  split at h <;> [skip; split at h] <;> simp_all [isCont] <;> omega

/-- A valid two-byte decode yields a rune in `[0x80, 0x800)`. -/
theorem decodeRune_two_range {s : ByteStr} {r : Nat} (h : decodeRune s = (r, 2)) :
    128 ≤ r ∧ r < 2048 := by
  obtain ⟨b0, b1, t, -, h1, h2, h3, h4⟩ := decodeRune_size_two h
  have := isCont_iff.mp h3
  omega

/-- A valid three-byte decode yields a rune in `[0x800, 0x10000)`. -/
theorem decodeRune_three_range {s : ByteStr} {r : Nat} (h : decodeRune s = (r, 3)) :
    2048 ≤ r ∧ r < 65536 := by
  obtain ⟨b0, b1, b2, t, -, h1, h2, h3, h4, h5⟩ := decodeRune_size_three h
  have ha := accept3_bounds h3
  have hb := isCont_iff.mp h4
  rcases Nat.eq_or_lt_of_le h1 with he | hgt
  · have := ha.2.2 he.symm
    omega
  · omega

/-- A valid four-byte decode yields a rune at or above `0x10000`. -/
theorem decodeRune_four_range {s : ByteStr} {r : Nat} (h : decodeRune s = (r, 4)) :
    65536 ≤ r := by
  obtain ⟨b0, b1, b2, b3, t, -, h1, h2, h3, h4, h5, h6⟩ := decodeRune_size_four h
  have ha := accept4_bounds h3
  have hb := isCont_iff.mp h4
  rcases Nat.eq_or_lt_of_le h1 with he | hgt
  · have := ha.2.2 he.symm
    omega
  · omega

/-- A valid decode of a rune below 0x80 is a single byte equal to it. -/
theorem decodeRune_low {s : ByteStr} {r size : Nat} (h : decodeRune s = (r, size))
    (hne : s ≠ []) (hv : ¬(r = 65533 ∧ size = 1)) (hlow : r < 128) :
    size = 1 ∧ ∃ t, s = r :: t := by
  have hc := decodeRune_snd_cases s
  rw [h] at hc
  simp only at hc
  rcases hc with h0 | h1 | h2 | h3 | h4
  · subst h0
    cases s with
    | nil => exact absurd rfl hne
    | cons b t =>
      have := decodeRune_cons_snd_pos b t
      rw [h] at this
      simp at this
  · subst h1
    obtain ⟨t, ht, -⟩ := decodeRune_size_one h (by omega)
    exact ⟨rfl, t, ht⟩
  · subst h2
    have := decodeRune_two_range h
    omega
  · subst h3
    have := decodeRune_three_range h
    omega
  · subst h4
    have := decodeRune_four_range h
    omega

/-- If the head of a list is some prefix, the list decomposes. -/
theorem take_eq_cons {s l : ByteStr} {b m : Nat} (h : s.take m = b :: l) :
    ∃ t, s = b :: t ∧ t.take (m - 1) = l := by
  cases s with
  | nil => simp at h
  | cons x t =>
    cases m with
    | zero => simp at h
    | succ m' =>
      simp only [List.take] at h
      obtain ⟨h1, h2⟩ := List.cons.inj h
      exact ⟨t, by rw [h1], by simpa using h2⟩

/-- A space rune decoded from a prefix is also decoded from the full list
(the space encodings are complete sequences determined by their leading
bytes). -/
theorem isSpace_decode_take {s : ByteStr} {m : Nat}
    (h : isSpaceRune (decodeRune (s.take m)).1 = true) :
    isSpaceRune (decodeRune s).1 = true := by
  rcases hp : decodeRune (s.take m) with ⟨r, size⟩
  rw [hp] at h
  simp only at h
  have hc := decodeRune_snd_cases (s.take m)
  rw [hp] at hc
  simp only at hc
  have hr : r ≠ 65533 := by
    intro he
    rw [he] at h
    simp [isSpaceRune] at h
  rcases hc with h0 | h1 | h2 | h3 | h4
  · rw [h0] at hp
    cases hm : s.take m with
    | nil => rw [hm] at hp; simp [decodeRune] at hp; exact absurd hp.symm hr
    | cons b t =>
      rw [hm] at hp
      have := decodeRune_cons_snd_pos b t
      rw [hp] at this
      simp at this
  · rw [h1] at hp
    obtain ⟨t, ht, hlow⟩ := decodeRune_size_one hp hr
    obtain ⟨u, hu, -⟩ := take_eq_cons ht
    rw [hu, decodeRune_one _ _ hlow]
    exact h
  · rw [h2] at hp
    obtain ⟨b0, b1, t, ht, c1, c2, c3, c4⟩ := decodeRune_size_two hp
    obtain ⟨u, hu, hut⟩ := take_eq_cons ht
    obtain ⟨u2, hu2, -⟩ := take_eq_cons hut
    rw [hu, hu2, decodeRune_two _ _ _ c1 c2 c3]
    rw [← c4]
    exact h
  · rw [h3] at hp
    obtain ⟨b0, b1, b2, t, ht, c1, c2, c3, c4, c5⟩ := decodeRune_size_three hp
    obtain ⟨u, hu, hut⟩ := take_eq_cons ht
    obtain ⟨u2, hu2, hut2⟩ := take_eq_cons hut
    obtain ⟨u3, hu3, -⟩ := take_eq_cons hut2
    rw [hu, hu2, hu3, decodeRune_three _ _ _ _ c1 c2 c3 c4]
    rw [← c5]
    exact h
  · rw [h4] at hp
    obtain ⟨b0, b1, b2, b3, t, ht, c1, c2, c3, c4, c5, c6⟩ := decodeRune_size_four hp
    obtain ⟨u, hu, hut⟩ := take_eq_cons ht
    obtain ⟨u2, hu2, hut2⟩ := take_eq_cons hut
    obtain ⟨u3, hu3, hut3⟩ := take_eq_cons hut2
    obtain ⟨u4, hu4, -⟩ := take_eq_cons hut3
    rw [hu, hu2, hu3, hu4, decodeRune_four _ _ _ _ _ c1 c2 c3 c4 c5]
    rw [← c6]
    exact h

/-! ## Fuel irrelevance and step equations for the trim loops -/

theorem trimLeftSpaceGo_nil (fuel : Nat) : trimLeftSpaceGo fuel [] = [] := by
  cases fuel <;> rfl

theorem trimLeftSpaceGo_congr : ∀ (f1 f2 : Nat) (s : ByteStr), s.length ≤ f1 → s.length ≤ f2 →
    trimLeftSpaceGo f1 s = trimLeftSpaceGo f2 s
  | 0, f2, s, h1, _ => by
    have hs : s = [] := by cases s <;> simp_all
    subst hs
    rw [trimLeftSpaceGo_nil, trimLeftSpaceGo_nil]
  | f + 1, f2, s, h1, h2 => by
    cases s with
    | nil => rw [trimLeftSpaceGo_nil, trimLeftSpaceGo_nil]
    | cons b t =>
      cases f2 with
      | zero => simp at h2
      | succ f2' =>
        simp only [trimLeftSpaceGo]
        split
        · have hd := decodeRune_cons_snd_pos b t
          have hl : ((b :: t).drop (decodeRune (b :: t)).2).length =
              (b :: t).length - (decodeRune (b :: t)).2 := List.length_drop _ _
          simp only [List.length_cons] at h1 h2 hl
          exact trimLeftSpaceGo_congr f f2' _ (by omega) (by omega)
        · rfl

theorem trimLeftSpace_cons (b : Nat) (t : ByteStr) :
    trimLeftSpace (b :: t) =
      if isSpaceRune (decodeRune (b :: t)).1 then
        trimLeftSpace ((b :: t).drop (decodeRune (b :: t)).2)
      else b :: t := by
  show trimLeftSpaceGo (t.length + 1) (b :: t) = _
  simp only [trimLeftSpaceGo]
  split
  · have hd := decodeRune_cons_snd_pos b t
    have hl : ((b :: t).drop (decodeRune (b :: t)).2).length =
        (b :: t).length - (decodeRune (b :: t)).2 := List.length_drop _ _
    simp only [List.length_cons] at hl
    exact trimLeftSpaceGo_congr _ _ _ (by omega) (by omega)
  · rfl

theorem decodeLastRune_snd_pos (s : ByteStr) (h : s ≠ []) : 1 ≤ (decodeLastRune s).2 := by
  have hn : s.length ≠ 0 := by simpa using h
  simp only [decodeLastRune, lastRuneAt]
  (repeat' split) <;> first | omega | simp_all

theorem decodeLastRune_snd_le (s : ByteStr) : (decodeLastRune s).2 ≤ s.length := by
  simp only [decodeLastRune, lastRuneAt]
  (repeat' split) <;> first | omega | simp_all

theorem trimRightSpaceGo_nil (fuel : Nat) : trimRightSpaceGo fuel [] = [] := by
  cases fuel <;> simp [trimRightSpaceGo]

theorem trimRightSpaceGo_congr : ∀ (f1 f2 : Nat) (s : ByteStr), s.length ≤ f1 → s.length ≤ f2 →
    trimRightSpaceGo f1 s = trimRightSpaceGo f2 s
  | 0, f2, s, h1, _ => by
    have hs : s = [] := by cases s <;> simp_all
    subst hs
    rw [trimRightSpaceGo_nil, trimRightSpaceGo_nil]
  | f + 1, f2, s, h1, h2 => by
    rcases eq_or_ne s [] with hs | hs
    · subst hs
      rw [trimRightSpaceGo_nil, trimRightSpaceGo_nil]
    · have hlen : 1 ≤ s.length := by
        cases s with
        | nil => exact absurd rfl hs
        | cons b t => simp
      cases f2 with
      | zero => omega
      | succ f2' =>
        simp only [trimRightSpaceGo, if_neg hs]
        split
        · have hd := decodeLastRune_snd_pos s hs
          have hl : (s.take (s.length - (decodeLastRune s).2)).length =
              s.length - (decodeLastRune s).2 := by
            rw [List.length_take]
            omega
          exact trimRightSpaceGo_congr f f2' _ (by omega) (by omega)
        · rfl

theorem trimRightSpace_eq (s : ByteStr) :
    trimRightSpace s =
      if s = [] then []
      else if isSpaceRune (decodeLastRune s).1 then
        trimRightSpace (s.take (s.length - (decodeLastRune s).2))
      else s := by
  rcases eq_or_ne s [] with hs | hs
  · subst hs
    simp [trimRightSpace, trimRightSpaceGo_nil]
  · have hlen : 1 ≤ s.length := by
      cases s with
      | nil => exact absurd rfl hs
      | cons b t => simp
    rw [if_neg hs]
    show trimRightSpaceGo s.length s = _
    rcases hn : s.length with _ | n
    · omega
    · simp only [trimRightSpaceGo, if_neg hs]
      rw [← hn]
      split
      · have hd := decodeLastRune_snd_pos s hs
        have hl : (s.take (s.length - (decodeLastRune s).2)).length =
            s.length - (decodeLastRune s).2 := by
          rw [List.length_take]
          omega
        have hd2 := decodeLastRune_snd_le s
        exact trimRightSpaceGo_congr _ _ _ (by omega) (by omega)
      · rfl

/-- The left trim is a suffix: it drops some number of leading bytes. -/
theorem trimLeftSpace_eq_drop (s : ByteStr) : ∃ k, trimLeftSpace s = s.drop k := by
  generalize hn : s.length = n
  induction n using Nat.strong_induction_on generalizing s with
  | _ n ih =>
    cases s with
    | nil => exact ⟨0, by simp [trimLeftSpace, trimLeftSpaceGo_nil]⟩
    | cons b t =>
      rw [trimLeftSpace_cons]
      split
      · have hd := decodeRune_cons_snd_pos b t
        have hdl := decodeRune_snd_le_length (b :: t)
        have hlen : ((b :: t).drop (decodeRune (b :: t)).2).length < n := by
          rw [List.length_drop]
          simp only [List.length_cons] at hn ⊢
          omega
        obtain ⟨k, hk⟩ := ih _ hlen _ rfl
        exact ⟨(decodeRune (b :: t)).2 + k, by rw [hk, List.drop_drop, Nat.add_comm]⟩
      · exact ⟨0, rfl⟩

/-- The right trim is a prefix: it keeps some number of leading bytes. -/
theorem trimRightSpace_eq_take (s : ByteStr) :
    ∃ m, m ≤ s.length ∧ trimRightSpace s = s.take m := by
  generalize hn : s.length = n
  induction n using Nat.strong_induction_on generalizing s with
  | _ n ih =>
    rw [trimRightSpace_eq]
    rcases eq_or_ne s [] with hs | hs
    · exact ⟨0, by simp [hs]⟩
    · rw [if_neg hs]
      have hlen : 1 ≤ s.length := by
        cases s with
        | nil => exact absurd rfl hs
        | cons b t => simp
      split
      · have hd := decodeLastRune_snd_pos s hs
        have hl : (s.take (s.length - (decodeLastRune s).2)).length =
            s.length - (decodeLastRune s).2 := by
          rw [List.length_take]
          omega
        obtain ⟨m, hm, heq⟩ := ih (s.length - (decodeLastRune s).2) (by omega) _ hl
        refine ⟨m, by omega, ?_⟩
        rw [heq, List.take_take, Nat.min_eq_left (by omega)]
      · exact ⟨s.length, by omega, (List.take_length s).symm⟩

/-! ## Idempotence of TrimSpace -/

theorem trimLeftSpace_head (s : ByteStr) :
    trimLeftSpace s = [] ∨ isSpaceRune (decodeRune (trimLeftSpace s)).1 = false := by
  generalize hn : s.length = n
  induction n using Nat.strong_induction_on generalizing s with
  | _ n ih =>
    cases s with
    | nil => exact Or.inl (by simp [trimLeftSpace, trimLeftSpaceGo_nil])
    | cons b t =>
      rw [trimLeftSpace_cons]
      split
      · have hd := decodeRune_cons_snd_pos b t
        have hlen : ((b :: t).drop (decodeRune (b :: t)).2).length < n := by
          rw [List.length_drop]
          simp only [List.length_cons] at hn ⊢
          omega
        exact ih _ hlen _ rfl
      · right
        simp_all

theorem trimLeftSpace_of_not_space {s : ByteStr}
    (h : isSpaceRune (decodeRune s).1 = false) : trimLeftSpace s = s := by
  cases s with
  | nil => simp [trimLeftSpace, trimLeftSpaceGo_nil]
  | cons b t => rw [trimLeftSpace_cons, if_neg (by simp [h])]

theorem trimLeftSpace_idem (s : ByteStr) :
    trimLeftSpace (trimLeftSpace s) = trimLeftSpace s := by
  rcases trimLeftSpace_head s with h | h
  · rw [h]
    simp [trimLeftSpace, trimLeftSpaceGo_nil]
  · exact trimLeftSpace_of_not_space h

theorem trimRightSpace_last (s : ByteStr) :
    trimRightSpace s = [] ∨ isSpaceRune (decodeLastRune (trimRightSpace s)).1 = false := by
  generalize hn : s.length = n
  induction n using Nat.strong_induction_on generalizing s with
  | _ n ih =>
    rw [trimRightSpace_eq]
    rcases eq_or_ne s [] with hs | hs
    · exact Or.inl (by simp [hs])
    · rw [if_neg hs]
      have hlen : 1 ≤ s.length := by
        cases s with
        | nil => exact absurd rfl hs
        | cons b t => simp
      split
      · have hd := decodeLastRune_snd_pos s hs
        have hl : (s.take (s.length - (decodeLastRune s).2)).length < n := by
          rw [List.length_take]
          omega
        exact ih _ hl _ rfl
      · right
        simp_all

theorem trimRightSpace_of_not_space {s : ByteStr}
    (h : isSpaceRune (decodeLastRune s).1 = false) : trimRightSpace s = s := by
  rw [trimRightSpace_eq]
  rcases eq_or_ne s [] with hs | hs
  · simp [hs]
  · rw [if_neg hs, if_neg (by simp [h])]

theorem trimRightSpace_idem (s : ByteStr) :
    trimRightSpace (trimRightSpace s) = trimRightSpace s := by
  rcases trimRightSpace_last s with h | h
  · rw [h, trimRightSpace_eq]
    simp
  · exact trimRightSpace_of_not_space h

theorem trimSpace_idem (s : ByteStr) : trimSpace (trimSpace s) = trimSpace s := by
  unfold trimSpace
  rcases trimLeftSpace_head s with hu | hu
  · rw [hu]
    have h1 : trimRightSpace ([] : ByteStr) = [] := by rw [trimRightSpace_eq]; simp
    rw [h1, trimLeftSpace_of_not_space (by simp [decodeRune, isSpaceRune]), h1]
  · set u := trimLeftSpace s with hu_def
    rcases eq_or_ne (trimRightSpace u) [] with hv | hv
    · rw [hv, trimLeftSpace_of_not_space (by simp [decodeRune, isSpaceRune])]
      rw [trimRightSpace_eq]
      simp
    · obtain ⟨m, hm, hval⟩ := trimRightSpace_eq_take u
      have hfront : isSpaceRune (decodeRune (trimRightSpace u)).1 = false := by
        rw [hval]
        by_contra hcon
        rw [Bool.not_eq_false] at hcon
        have := isSpace_decode_take hcon
        rw [this] at hu
        exact Bool.true_eq_false.mp hu
      rw [trimLeftSpace_of_not_space hfront, trimRightSpace_idem]

/-- C10 — `classifyLogLine` gives the same answer on the raw line and on the
whitespace-trimmed line, because its first step is `strings.TrimSpace` and
trimming is idempotent. -/
theorem classifyLogLine_trim_invariant (s : ByteStr) :
    classifyLogLine s = classifyLogLine (trimSpace s) := by
  unfold classifyLogLine
  rw [trimSpace_idem]

/-! ## Positional helpers -/

theorem getD_drop (l : ByteStr) (n m : Nat) : (l.drop n).getD m 0 = l.getD (n + m) 0 := by
  simp [List.getD_eq_getD_get?, List.getElem?_drop]

theorem getD_take (l : ByteStr) (n m : Nat) (h : m < n) :
    (l.take n).getD m 0 = l.getD m 0 := by
  simp [List.getD_eq_getD_get?, List.getElem?_take_of_lt h]

/-- Every byte inside the window of a trailing space rune is either a high
byte (at or above 0x80) or itself an ASCII space byte. -/
theorem decodeLastRune_space_window {s : ByteStr}
    (hsp : isSpaceRune (decodeLastRune s).1 = true) :
    ∀ j, s.length - (decodeLastRune s).2 ≤ j → j < s.length →
      128 ≤ s.getD j 0 ∨ (s.getD j 0 < 128 ∧ isSpaceRune (s.getD j 0) = true) := by
  intro j hj1 hj2
  rcases hd : decodeLastRune s with ⟨r, size⟩
  rw [hd] at hsp hj1
  simp only at hsp hj1
  have hr65533 : r ≠ 65533 := by
    intro hre
    rw [hre] at hsp
    simp [isSpaceRune] at hsp
  simp only [decodeLastRune] at hd
  split at hd
  · omega
  · split at hd
    · rw [Prod.mk.injEq] at hd
      obtain ⟨h1, h2⟩ := hd
      right
      have hj : j = s.length - 1 := by omega
      subst hj
      rw [h1]
      exact ⟨by simp_all, hsp⟩
    · split at hd
      · -- k = 1
        simp only [lastRuneAt] at hd
        split at hd
        · rename_i hguard hsz
          rw [hd] at hsz
          simp only at hsz
          subst hsz
          have hidx : s.length - 1 - 1 = s.length - 2 := by omega
          rw [hidx] at hd
          obtain ⟨b0, b1, t, hX, c1, c2, c3, -⟩ := decodeRune_size_two hd
          left
          have hn2 : 2 ≤ s.length := hguard.1
          have hcont := isCont_iff.mp c3
          rcases (by omega : j = s.length - 2 ∨ j = s.length - 1) with hj | hj <;> subst hj
          · have := getD_drop s (s.length - 2) 0
            rw [hX] at this
            simp only [List.getD_cons_zero, Nat.add_zero] at this
            omega
          · have := getD_drop s (s.length - 2) 1
            rw [hX] at this
            simp only [List.getD_cons_succ, List.getD_cons_zero] at this
            have harith : s.length - 2 + 1 = s.length - 1 := by omega
            rw [harith] at this
            omega
        · rw [Prod.mk.injEq] at hd
          exact absurd hd.1.symm hr65533
      · split at hd
        · -- k = 2
          simp only [lastRuneAt] at hd
          split at hd
          · rename_i hguard hsz
            rw [hd] at hsz
            simp only at hsz
            subst hsz
            have hidx : s.length - 1 - 2 = s.length - 3 := by omega
            rw [hidx] at hd
            obtain ⟨b0, b1, b2, t, hX, c1, c2, c3, c4, -⟩ := decodeRune_size_three hd
            left
            have hn3 : 3 ≤ s.length := hguard.1
            have ha := accept3_bounds c3
            have hcont := isCont_iff.mp c4
            rcases (by omega :
                j = s.length - 3 ∨ j = s.length - 2 ∨ j = s.length - 1) with hj | hj | hj <;>
              subst hj
            · have := getD_drop s (s.length - 3) 0
              rw [hX] at this
              simp only [List.getD_cons_zero, Nat.add_zero] at this
              omega
            · have := getD_drop s (s.length - 3) 1
              rw [hX] at this
              simp only [List.getD_cons_succ, List.getD_cons_zero] at this
              have harith : s.length - 3 + 1 = s.length - 2 := by omega
              rw [harith] at this
              omega
            · have := getD_drop s (s.length - 3) 2
              rw [hX] at this
              simp only [List.getD_cons_succ, List.getD_cons_zero] at this
              have harith : s.length - 3 + 2 = s.length - 1 := by omega
              rw [harith] at this
              omega
          · rw [Prod.mk.injEq] at hd
            exact absurd hd.1.symm hr65533
        · split at hd
          · -- k = 3
            simp only [lastRuneAt] at hd
            split at hd
            · rename_i hguard hsz
              rw [hd] at hsz
              simp only at hsz
              subst hsz
              have hidx : s.length - 1 - 3 = s.length - 4 := by omega
              rw [hidx] at hd
              obtain ⟨b0, b1, b2, b3, t, hX, c1, c2, c3, c4, c5, -⟩ := decodeRune_size_four hd
              left
              have hn4 : 4 ≤ s.length := hguard.1
              have ha := accept4_bounds c3
              have hcont := isCont_iff.mp c4
              have hcont2 := isCont_iff.mp c5
              rcases (by omega : j = s.length - 4 ∨ j = s.length - 3 ∨
                  j = s.length - 2 ∨ j = s.length - 1) with hj | hj | hj | hj <;> subst hj
              · have := getD_drop s (s.length - 4) 0
                rw [hX] at this
                simp only [List.getD_cons_zero, Nat.add_zero] at this
                omega
              · have := getD_drop s (s.length - 4) 1
                rw [hX] at this
                simp only [List.getD_cons_succ, List.getD_cons_zero] at this
                have harith : s.length - 4 + 1 = s.length - 3 := by omega
                rw [harith] at this
                omega
              · have := getD_drop s (s.length - 4) 2
                rw [hX] at this
                simp only [List.getD_cons_succ, List.getD_cons_zero] at this
                have harith : s.length - 4 + 2 = s.length - 2 := by omega
                rw [harith] at this
                omega
              · have := getD_drop s (s.length - 4) 3
                rw [hX] at this
                simp only [List.getD_cons_succ, List.getD_cons_zero] at this
                have harith : s.length - 4 + 3 = s.length - 1 := by omega
                rw [harith] at this
                omega
            · rw [Prod.mk.injEq] at hd
              exact absurd hd.1.symm hr65533
          · rw [Prod.mk.injEq] at hd
            exact absurd hd.1.symm hr65533

/-- Trimming trailing whitespace never removes bytes at or before a
non-space ASCII byte: the result is a prefix that keeps that position. -/
theorem trimRightSpace_keep (s : ByteStr) (i : Nat) (hi : i < s.length)
    (hb : s.getD i 0 < 128) (hsp : isSpaceRune (s.getD i 0) = false) :
    ∃ m, m ≤ s.length ∧ i < m ∧ trimRightSpace s = s.take m := by
  generalize hn : s.length = n
  induction n using Nat.strong_induction_on generalizing s with
  | _ n ih =>
    rw [trimRightSpace_eq]
    rcases eq_or_ne s [] with hs | hs
    · subst hs
      simp at hi
    · rw [if_neg hs]
      have hlen : 1 ≤ s.length := by
        cases s with
        | nil => exact absurd rfl hs
        | cons b t => simp
      split
      · rename_i hspace
        have hd := decodeLastRune_snd_pos s hs
        have hdle := decodeLastRune_snd_le s
        have hwin := decodeLastRune_space_window hspace
        have hlt : i < s.length - (decodeLastRune s).2 := by
          by_contra hcon
          push_neg at hcon
          rcases hwin i hcon (by omega) with hhigh | ⟨-, hsp2⟩
          · omega
          · rw [hsp2] at hsp
            exact Bool.true_eq_false.mp hsp
        have hl : (s.take (s.length - (decodeLastRune s).2)).length =
            s.length - (decodeLastRune s).2 := by
          rw [List.length_take]
          omega
        have hb2 : (s.take (s.length - (decodeLastRune s).2)).getD i 0 = s.getD i 0 :=
          getD_take s _ i hlt
        obtain ⟨m, hm, him, heq⟩ := ih (s.length - (decodeLastRune s).2) (by omega) _
          (by rw [hl]; omega) (by rw [hb2]; exact hb) (by rw [hb2]; exact hsp) hl
        refine ⟨m, by omega, him, ?_⟩
        rw [heq, List.take_take, Nat.min_eq_left (by omega)]
      · exact ⟨s.length, by omega, by omega, (List.take_length s).symm⟩

/-- C9 — the classifier is total: empty or (ASCII-)whitespace-only input
yields `(NoLevel, "")`, and when no classification rule matches it returns
`(NoLevel, trimmed input)`; there is no error or exception path. -/
theorem classifyLogLine_total (s : ByteStr) :
    ((∀ b ∈ s, b = 32 ∨ b = 9 ∨ b = 10 ∨ b = 11 ∨ b = 12 ∨ b = 13) →
      classifyLogLine s = (.NoLevel, [])) ∧
    (httpTLSHandshakePfx.isPrefixOf (trimSpace s) = false →
      bracketRule (trimSpace s) = none →
      leadingTokenRule (trimSpace s) = none →
      delimTokenRule (trimSpace s) = none →
      errorFallback (trimSpace s) = none →
      classifyLogLine s = (.NoLevel, trimSpace s)) := by
  constructor
  · intro hall
    have hleft : trimLeftSpace s = [] := by
      generalize hn : s.length = n
      induction n using Nat.strong_induction_on generalizing s with
      | _ n ih =>
        cases s with
        | nil => simp [trimLeftSpace, trimLeftSpaceGo_nil]
        | cons b t =>
          have hb : b = 32 ∨ b = 9 ∨ b = 10 ∨ b = 11 ∨ b = 12 ∨ b = 13 :=
            hall b (by simp)
          have hlow : b < 128 := by omega
          rw [trimLeftSpace_cons, decodeRune_one b t hlow]
          simp only
          rw [if_pos (by rcases hb with h | h | h | h | h | h <;> subst h <;> decide)]
          simp only [List.drop_one, List.tail_cons]
          exact ih t.length (by simp [← hn]) t (fun x hx => hall x (by simp [hx])) rfl
    unfold classifyLogLine trimSpace
    rw [hleft, trimRightSpace_eq]
    simp [classifyTrimmed]
  · intro h1 h2 h3 h4 h5
    unfold classifyLogLine
    rcases eq_or_ne (trimSpace s) [] with ht | ht
    · rw [ht]
      simp [classifyTrimmed]
    · unfold classifyTrimmed
      rw [if_neg ht, if_neg (by simp [h1]), h2, h3, h4, h5]

/-- C1 — every line that begins with the literal prefix
`http: TLS handshake error` is classified as Error by the fixed-prefix rule
(which runs before the `error` substring fallback), with the prefix and then
leading `": "` punctuation stripped from the message; in particular the
spec's example line maps to
`(Error, "from 1.2.3.4: remote error: tls: bad certificate")`. -/
theorem classifyLogLine_tls_prefix :
    (∀ s : ByteStr, httpTLSHandshakePfx.isPrefixOf s = true →
      classifyLogLine s =
        (.ErrorLevel, trimLeftCut (trimSpace ((trimSpace s).drop 25)) [58, 32])) ∧
    classifyLogLine
        (str "http: TLS handshake error from 1.2.3.4: remote error: tls: bad certificate") =
      (.ErrorLevel, str "from 1.2.3.4: remote error: tls: bad certificate") := by
  constructor
  · intro s hpre
    rw [List.isPrefixOf_iff_prefix] at hpre
    obtain ⟨rest, hrest⟩ := hpre
    have hs : s = httpTLSHandshakePfx ++ rest := hrest.symm
    subst hs
    have hhead : decodeRune (httpTLSHandshakePfx ++ rest) = (104, 1) := by
      have : httpTLSHandshakePfx ++ rest = 104 :: (str "ttp: TLS handshake error" ++ rest) := by
        simp [httpTLSHandshakePfx, str]
      rw [this]
      exact decodeRune_one _ _ (by omega)
    have hleft : trimLeftSpace (httpTLSHandshakePfx ++ rest) = httpTLSHandshakePfx ++ rest :=
      trimLeftSpace_of_not_space (by rw [hhead]; decide)
    have hg : (httpTLSHandshakePfx ++ rest).getD 24 0 = 114 := by
      rw [List.getD_append _ _ _ _ (by decide)]
      decide
    obtain ⟨m, hm, h24, htake⟩ := trimRightSpace_keep (httpTLSHandshakePfx ++ rest) 24
      (by simp [httpTLSHandshakePfx, str]) (by rw [hg]; omega) (by rw [hg]; decide)
    have h25 : httpTLSHandshakePfx.length = 25 := by decide
    have htrim : trimSpace (httpTLSHandshakePfx ++ rest) =
        httpTLSHandshakePfx ++ rest.take (m - 25) := by
      unfold trimSpace
      rw [hleft, htake, List.take_append_eq_append_take,
        List.take_of_length_le (show httpTLSHandshakePfx.length ≤ m by rw [h25]; omega), h25]
    have hne : trimSpace (httpTLSHandshakePfx ++ rest) ≠ [] := by
      rw [htrim]
      simp [httpTLSHandshakePfx, str]
    have hpre2 : httpTLSHandshakePfx.isPrefixOf (trimSpace (httpTLSHandshakePfx ++ rest)) = true := by
      rw [htrim, List.isPrefixOf_iff_prefix]
      exact ⟨rest.take (m - 25), rfl⟩
    unfold classifyLogLine classifyTrimmed
    rw [if_neg hne, if_pos hpre2, h25]
  · decide

/-! ## Last-rune decoding ignores a preceding context ending in ASCII -/

theorem isStart_of_low {b : Nat} (h : b < 128) : isStart b = true := by
  simp [isStart]
  omega

theorem drop_length_sub_one {A : ByteStr} (h : A ≠ []) :
    A.drop (A.length - 1) = [A.getD (A.length - 1) 0] := by
  induction A with
  | nil => exact absurd rfl h
  | cons x t ih =>
    cases t with
    | nil => rfl
    | cons y u =>
      have hne : y :: u ≠ [] := by simp
      have := ih hne
      simp only [List.length_cons] at this ⊢
      simpa using this

theorem decodeLastRune_eq (s : ByteStr) (hs : s ≠ []) :
    decodeLastRune s =
      if s.getD (s.length - 1) 0 < 128 then (s.getD (s.length - 1) 0, 1)
      else if 2 ≤ s.length ∧ isStart (s.getD (s.length - 2) 0) then lastRuneAt s s.length 1
      else if 3 ≤ s.length ∧ isStart (s.getD (s.length - 3) 0) then lastRuneAt s s.length 2
      else if 4 ≤ s.length ∧ isStart (s.getD (s.length - 4) 0) then lastRuneAt s s.length 3
      else (65533, 1) := by
  simp only [decodeLastRune]
  rw [if_neg (by simpa using hs)]

/-- Decoding the last rune of `A ++ M` (with `A` ending in an ASCII byte)
gives exactly the last rune of `M`: the backwards scan can never read a rune
across the boundary because the ASCII byte is a start byte that decodes with
size one. -/
theorem decodeLastRune_append (A M : ByteStr) (hA : A ≠ [])
    (he : A.getD (A.length - 1) 0 < 128) (hM : M ≠ []) :
    decodeLastRune (A ++ M) = decodeLastRune M := by
  have hAM : A ++ M ≠ [] := by simp [hA]
  have hn : (A ++ M).length = A.length + M.length := List.length_append A M
  have hla : 1 ≤ A.length := by
    cases A with
    | nil => exact absurd rfl hA
    | cons b t => simp
  have hm : 1 ≤ M.length := by
    cases M with
    | nil => exact absurd rfl hM
    | cons b t => simp
  have estart : isStart (A.getD (A.length - 1) 0) = true := isStart_of_low he
  have hdropA : (A ++ M).drop (A.length - 1) = A.getD (A.length - 1) 0 :: M := by
    rw [List.drop_append_eq_append_drop, drop_length_sub_one hA,
      show A.length - 1 - A.length = 0 by omega, List.drop_zero]
    rfl
  have g1 : (A ++ M).getD ((A ++ M).length - 1) 0 = M.getD (M.length - 1) 0 := by
    rw [List.getD_append_right _ _ _ _ (by omega)]
    congr 1
    omega
  have lastA : ∀ k, k = M.length → lastRuneAt (A ++ M) (A ++ M).length k = (65533, 1) := by
    intro k hk
    subst hk
    simp only [lastRuneAt]
    rw [show (A ++ M).length - 1 - M.length = A.length - 1 by omega, hdropA,
      decodeRune_one _ _ he]
    simp only
    rw [if_neg (by omega)]
  have lastEq : ∀ k, k + 1 ≤ M.length →
      lastRuneAt (A ++ M) (A ++ M).length k = lastRuneAt M M.length k := by
    intro k hk
    simp only [lastRuneAt]
    rw [show (A ++ M).length - 1 - k = A.length + (M.length - 1 - k) by omega,
      List.drop_append]
  rw [decodeLastRune_eq _ hAM, decodeLastRune_eq _ hM, g1]
  by_cases h1 : M.getD (M.length - 1) 0 < 128
  · rw [if_pos h1, if_pos h1]
  · rw [if_neg h1, if_neg h1]
    rcases (by omega : M.length = 1 ∨ 2 ≤ M.length) with hm1 | hm2
    · have hc1 : 2 ≤ (A ++ M).length ∧ isStart ((A ++ M).getD ((A ++ M).length - 2) 0) = true := by
        refine ⟨by omega, ?_⟩
        rw [show (A ++ M).length - 2 = (A ++ M).length - 1 - 1 by omega,
          show (A ++ M).length - 1 - 1 = A.length - 1 by omega,
          List.getD_append _ _ _ _ (by omega)]
        exact estart
      rw [if_pos hc1, lastA 1 hm1.symm]
      rw [if_neg (by rintro ⟨hc, -⟩; omega), if_neg (by rintro ⟨hc, -⟩; omega),
        if_neg (by rintro ⟨hc, -⟩; omega)]
    · have g2 : (A ++ M).getD ((A ++ M).length - 2) 0 = M.getD (M.length - 2) 0 := by
        rw [List.getD_append_right _ _ _ _ (by omega)]
        congr 1
        omega
      by_cases hs1 : isStart (M.getD (M.length - 2) 0) = true
      · rw [if_pos ⟨by omega, by rw [g2]; exact hs1⟩, if_pos ⟨hm2, hs1⟩]
        exact lastEq 1 (by omega)
      · rw [if_neg (by rintro ⟨-, hc⟩; rw [g2] at hc; exact hs1 hc),
          if_neg (show ¬(2 ≤ M.length ∧ isStart (M.getD (M.length - 2) 0) = true) by
            rintro ⟨-, hc⟩; exact hs1 hc)]
        rcases (by omega : M.length = 2 ∨ 3 ≤ M.length) with hm2' | hm3
        · have hc2 : 3 ≤ (A ++ M).length ∧
              isStart ((A ++ M).getD ((A ++ M).length - 3) 0) = true := by
            refine ⟨by omega, ?_⟩
            rw [show (A ++ M).length - 3 = A.length - 1 by omega,
              List.getD_append _ _ _ _ (by omega)]
            exact estart
          rw [if_pos hc2, lastA 2 hm2'.symm]
          rw [if_neg (by rintro ⟨hc, -⟩; omega), if_neg (by rintro ⟨hc, -⟩; omega)]
        · have g3 : (A ++ M).getD ((A ++ M).length - 3) 0 = M.getD (M.length - 3) 0 := by
            rw [List.getD_append_right _ _ _ _ (by omega)]
            congr 1
            omega
          by_cases hs2 : isStart (M.getD (M.length - 3) 0) = true
          · rw [if_pos ⟨by omega, by rw [g3]; exact hs2⟩, if_pos ⟨hm3, hs2⟩]
            exact lastEq 2 (by omega)
          · rw [if_neg (by rintro ⟨-, hc⟩; rw [g3] at hc; exact hs2 hc),
              if_neg (show ¬(3 ≤ M.length ∧ isStart (M.getD (M.length - 3) 0) = true) by
                rintro ⟨-, hc⟩; exact hs2 hc)]
            rcases (by omega : M.length = 3 ∨ 4 ≤ M.length) with hm3' | hm4
            · have hc3 : 4 ≤ (A ++ M).length ∧
                  isStart ((A ++ M).getD ((A ++ M).length - 4) 0) = true := by
                refine ⟨by omega, ?_⟩
                rw [show (A ++ M).length - 4 = A.length - 1 by omega,
                  List.getD_append _ _ _ _ (by omega)]
                exact estart
              rw [if_pos hc3, lastA 3 hm3'.symm]
              rw [if_neg (by rintro ⟨hc, -⟩; omega)]
            · have g4 : (A ++ M).getD ((A ++ M).length - 4) 0 = M.getD (M.length - 4) 0 := by
                rw [List.getD_append_right _ _ _ _ (by omega)]
                congr 1
                omega
              by_cases hs3 : isStart (M.getD (M.length - 4) 0) = true
              · rw [if_pos ⟨by omega, by rw [g4]; exact hs3⟩, if_pos ⟨hm4, hs3⟩]
                exact lastEq 3 (by omega)
              · rw [if_neg (by rintro ⟨-, hc⟩; rw [g4] at hc; exact hs3 hc),
                  if_neg (show ¬(4 ≤ M.length ∧ isStart (M.getD (M.length - 4) 0) = true) by
                    rintro ⟨-, hc⟩; exact hs3 hc)]

/-! ## Support lemmas for the token-style claims -/

/-- The recognized token spellings of `levelFromToken`, paired with their
severities. -/
def canonicalTokens : List (ByteStr × Level) :=
  [(str "trace", .TraceLevel), (str "trc", .TraceLevel),
   (str "debug", .DebugLevel), (str "dbg", .DebugLevel),
   (str "info", .InfoLevel), (str "inf", .InfoLevel), (str "information", .InfoLevel),
   (str "warn", .WarnLevel), (str "warning", .WarnLevel), (str "wrn", .WarnLevel),
   (str "error", .ErrorLevel), (str "err", .ErrorLevel),
   (str "fatal", .FatalLevel), (str "crit", .FatalLevel), (str "critical", .FatalLevel),
   (str "panic", .PanicLevel), (str "alert", .PanicLevel)]

theorem asciiEqualFold_iff : ∀ s t : ByteStr, (asciiEqualFold s t = true ↔ s.map toLowerASCII = t)
  | [], [] => by simp [asciiEqualFold]
  | [], b :: t => by simp [asciiEqualFold]
  | a :: s, [] => by simp [asciiEqualFold]
  | a :: s, b :: t => by
    simp [asciiEqualFold, asciiEqualFold_iff s t]

theorem asciiEqualFold_eq (s t : ByteStr) :
    asciiEqualFold s t = decide (s.map toLowerASCII = t) := by
  by_cases h : s.map toLowerASCII = t
  · rw [(asciiEqualFold_iff s t).mpr h, decide_eq_true h]
  · have hne : asciiEqualFold s t ≠ true := fun hc => h ((asciiEqualFold_iff s t).mp hc)
    rw [Bool.eq_false_iff.mpr hne, decide_eq_false h]

theorem toLowerASCII_letter {b c : Nat} (h : toLowerASCII b = c) (hc : 97 ≤ c ∧ c ≤ 122) :
    (65 ≤ b ∧ b ≤ 90) ∨ (97 ≤ b ∧ b ≤ 122) := by
  unfold toLowerASCII at h
  split at h <;> omega

theorem map_lower_letters {t c : ByteStr} (h : t.map toLowerASCII = c)
    (hc : ∀ x ∈ c, 97 ≤ x ∧ x ≤ 122) :
    ∀ b ∈ t, (65 ≤ b ∧ b ≤ 90) ∨ (97 ≤ b ∧ b ≤ 122) := by
  intro b hb
  have hmem : toLowerASCII b ∈ c := h ▸ List.mem_map_of_mem _ hb
  exact toLowerASCII_letter rfl (hc _ hmem)

theorem dropWhile_eq_self_of {p : Nat → Bool} {t : ByteStr} (h : ∀ b ∈ t, p b = false) :
    t.dropWhile p = t := by
  cases t with
  | nil => rfl
  | cons b ts => rw [List.dropWhile_cons, if_neg (by simp [h b (by simp)])]

theorem trimDelims_of_no_delims {t : ByteStr} (h : ∀ b ∈ t, isDelimiter b = false) :
    trimDelims t = t := by
  unfold trimDelims
  rw [dropWhile_eq_self_of h, dropWhile_eq_self_of (fun b hb => h b (by
    rw [List.mem_reverse] at hb
    exact hb)), List.reverse_reverse]

theorem letter_not_delim {b : Nat} (h : (65 ≤ b ∧ b ≤ 90) ∨ (97 ≤ b ∧ b ≤ 122)) :
    isDelimiter b = false := by
  simp [isDelimiter]
  omega

theorem letter_not_split {b : Nat} (h : (65 ≤ b ∧ b ≤ 90) ∨ (97 ≤ b ∧ b ≤ 122)) :
    isSplitByte b = false := by
  simp [isSplitByte]
  omega

theorem levelFromToken_of_canonical {t : ByteStr} {L : Level}
    (h : (t.map toLowerASCII, L) ∈ canonicalTokens) : levelFromToken t = some L := by
  have hlet : ∀ b ∈ t, (65 ≤ b ∧ b ≤ 90) ∨ (97 ≤ b ∧ b ≤ 122) := by
    refine map_lower_letters rfl ?_
    have hall : ∀ p ∈ canonicalTokens, ∀ x ∈ p.1, 97 ≤ x ∧ x ≤ 122 := by decide
    exact hall _ h
  have hnd : ∀ b ∈ t, isDelimiter b = false := fun b hb => letter_not_delim (hlet b hb)
  have ht : t ≠ [] := by
    intro he
    subst he
    have : ∀ p ∈ canonicalTokens, p.1 ≠ [] := by decide
    exact this _ h rfl
  simp only [canonicalTokens, List.mem_cons, List.mem_singleton, Prod.mk.injEq,
    List.not_mem_nil, or_false] at h
  rcases h with ⟨hmap, hl⟩ | ⟨hmap, hl⟩ | ⟨hmap, hl⟩ | ⟨hmap, hl⟩ | ⟨hmap, hl⟩ | ⟨hmap, hl⟩ |
    ⟨hmap, hl⟩ | ⟨hmap, hl⟩ | ⟨hmap, hl⟩ | ⟨hmap, hl⟩ | ⟨hmap, hl⟩ | ⟨hmap, hl⟩ |
    ⟨hmap, hl⟩ | ⟨hmap, hl⟩ | ⟨hmap, hl⟩ | ⟨hmap, hl⟩ | ⟨hmap, hl⟩ <;>
  · subst hl
    unfold levelFromToken
    simp only [trimDelims_of_no_delims hnd, asciiEqualFold_eq, hmap]
    rw [if_neg ht]
    decide

/-- A fixed point of `trimSpace` is a fixed point of both one-sided trims. -/
theorem trimSpace_fix {M : ByteStr} (h : trimSpace M = M) :
    trimLeftSpace M = M ∧ trimRightSpace M = M := by
  obtain ⟨k, hk⟩ := trimLeftSpace_eq_drop M
  obtain ⟨m, hm, hv⟩ := trimRightSpace_eq_take (trimLeftSpace M)
  rcases Nat.eq_zero_or_pos M.length with hz | hp
  · have hMnil : M = [] := List.length_eq_zero.mp hz
    subst hMnil
    refine ⟨by simp [trimLeftSpace, trimLeftSpaceGo_nil], ?_⟩
    rw [trimRightSpace_eq]
    simp
  · have hlen : (trimSpace M).length ≤ M.length - k := by
      unfold trimSpace
      rw [hv, List.length_take, hk, List.length_drop]
      omega
    rw [h] at hlen
    have hk0 : k = 0 := by omega
    subst hk0
    rw [List.drop_zero] at hk
    refine ⟨hk, ?_⟩
    unfold trimSpace at h
    rw [hk] at h
    exact h

theorem trimLeft_fix_head {x : Nat} {M' : ByteStr} (h : trimLeftSpace (x :: M') = x :: M') :
    isSpaceRune (decodeRune (x :: M')).1 = false := by
  by_contra hc
  rw [Bool.not_eq_false] at hc
  rw [trimLeftSpace_cons, if_pos hc] at h
  obtain ⟨k, hk⟩ := trimLeftSpace_eq_drop ((x :: M').drop (decodeRune (x :: M')).2)
  rw [hk] at h
  have h1 := congrArg List.length h
  have hd := decodeRune_cons_snd_pos x M'
  simp [List.length_drop] at h1
  omega

theorem trimRight_fix_not_space {M : ByteStr} (hM : M ≠ []) (h : trimRightSpace M = M) :
    isSpaceRune (decodeLastRune M).1 = false := by
  by_contra hc
  rw [Bool.not_eq_false] at hc
  have heq := trimRightSpace_eq M
  rw [if_neg hM, if_pos hc] at heq
  rw [heq] at h
  obtain ⟨m, hm, hv⟩ := trimRightSpace_eq_take (M.take (M.length - (decodeLastRune M).2))
  rw [hv] at h
  have h1 := congrArg List.length h
  have hd := decodeLastRune_snd_pos M hM
  have hl : 1 ≤ M.length := by
    cases M with
    | nil => exact absurd rfl hM
    | cons b t => simp
  simp [List.length_take] at h1
  omega

theorem getD_append_last (B : ByteStr) (e : Nat) :
    (B ++ [e]).getD ((B ++ [e]).length - 1) 0 = e := by
  rw [List.length_append]
  simp only [List.length_singleton, Nat.add_sub_cancel]
  rw [List.getD_append_right _ _ _ _ (le_refl _)]
  simp

/-- Trimming a line built as `A ++ M`, with `A` starting with a non-space
ASCII byte and ending with an ASCII byte, and `M` a non-empty fixed point of
the right trim, leaves the line unchanged. -/
theorem trimSpace_construct {A M : ByteStr} (hA : A ≠ [])
    (hhead : isSpaceRune (decodeRune (A ++ M)).1 = false)
    (he : A.getD (A.length - 1) 0 < 128) (hM : M ≠ []) (hMfix : trimRightSpace M = M) :
    trimSpace (A ++ M) = A ++ M := by
  unfold trimSpace
  rw [trimLeftSpace_of_not_space hhead]
  apply trimRightSpace_of_not_space
  rw [decodeLastRune_append A M hA he hM]
  exact trimRight_fix_not_space hM hMfix

theorem splitLeadingToken_append {t : ByteStr} (ht : ∀ b ∈ t, isSplitByte b = false)
    {d : Nat} (hd : isSplitByte d = true) (r : ByteStr) :
    splitLeadingToken (t ++ d :: r) = (t, d :: r) := by
  induction t with
  | nil => simp [splitLeadingToken, hd]
  | cons b ts ih =>
    simp only [List.cons_append, splitLeadingToken, List.append_eq]
    rw [if_neg (by simp [ht b (by simp)]), ih (fun x hx => ht x (by simp [hx]))]

theorem indexOfByte_append_of_not_mem {t : ByteStr} {c : Nat} (h : ∀ b ∈ t, b ≠ c)
    (r : ByteStr) : indexOfByte (t ++ c :: r) c = some t.length := by
  induction t with
  | nil => simp [indexOfByte]
  | cons b ts ih =>
    simp only [List.cons_append, indexOfByte, List.append_eq]
    rw [if_neg (h b (by simp)), ih (fun x hx => h x (by simp [hx]))]
    rfl

theorem indexOfByte_cons_ne {b c : Nat} {t : ByteStr} (h : b ≠ c) :
    indexOfByte (b :: t) c = (indexOfByte t c).map (· + 1) := by
  simp [indexOfByte, h]

theorem isPrefixOf_cons_neq {a b : Nat} {p l : ByteStr} (h : a ≠ b) :
    (a :: p).isPrefixOf (b :: l) = false := by
  simp [List.isPrefixOf, h]

theorem trimSpace_cons_space {M : ByteStr} (h1 : trimLeftSpace M = M)
    (h2 : trimRightSpace M = M) : trimSpace (32 :: M) = M := by
  unfold trimSpace
  have : trimLeftSpace (32 :: M) = trimLeftSpace M := by
    rw [trimLeftSpace_cons, decodeRune_one 32 M (by omega)]
    simp [isSpaceRune]
  rw [this, h1, h2]

/-- C4 (amended) — for every token `t` that is a case variant of a
recognized spelling with severity `L`, and every non-empty message `M` with
no surrounding whitespace whose first byte is not a delimiter
(`-`, `|`, `:`), each supported style — bracketed `[t]`, bare `t`, and the
`t:`/`t|`/`t-` delimiter styles, each followed by a space and `M` —
classifies to `(L, M)` with the token and delimiter punctuation stripped. -/
theorem classifyLogLine_token_styles (t M : ByteStr) (L : Level)
    (hcan : (t.map toLowerASCII, L) ∈ canonicalTokens)
    (hM : M ≠ []) (hMt : trimSpace M = M)
    (h45 : M.headD 0 ≠ 45) (h124 : M.headD 0 ≠ 124) (h58 : M.headD 0 ≠ 58) :
    classifyLogLine (91 :: (t ++ (93 :: 32 :: M))) = (L, M) ∧
    classifyLogLine (t ++ (32 :: M)) = (L, M) ∧
    classifyLogLine (t ++ (58 :: 32 :: M)) = (L, M) ∧
    classifyLogLine (t ++ (124 :: 32 :: M)) = (L, M) ∧
    classifyLogLine (t ++ (45 :: 32 :: M)) = (L, M) := by
  obtain ⟨hMl, hMr⟩ := trimSpace_fix hMt
  have hlev : levelFromToken t = some L := levelFromToken_of_canonical hcan
  have hlet : ∀ b ∈ t, (65 ≤ b ∧ b ≤ 90) ∨ (97 ≤ b ∧ b ≤ 122) := by
    refine map_lower_letters rfl ?_
    have hall : ∀ p ∈ canonicalTokens, ∀ x ∈ p.1, 97 ≤ x ∧ x ≤ 122 := by decide
    exact hall _ hcan
  have ht : t ≠ [] := by
    intro he
    subst he
    have hne : ∀ p ∈ canonicalTokens, p.1 ≠ [] := by decide
    exact hne _ hcan rfl
  obtain ⟨b0, t', rfl⟩ : ∃ b0 t', t = b0 :: t' := by
    cases t with
    | nil => exact absurd rfl ht
    | cons a b => exact ⟨a, b, rfl⟩
  have hb0 := hlet b0 (by simp)
  have hb0low : b0 < 128 := by omega
  have hb0nsp : isSpaceRune b0 = false := by simp [isSpaceRune]; omega
  have hb0n104 : b0 ≠ 104 := by
    intro he
    subst he
    have hhead : ∀ p ∈ canonicalTokens, p.1.headD 0 ≠ 104 := by decide
    have hh : ((104 :: t').map toLowerASCII).headD 0 = 104 := by simp [toLowerASCII]
    exact absurd hh (hhead _ hcan)
  obtain ⟨x, M', rfl⟩ : ∃ x M', M = x :: M' := by
    cases M with
    | nil => exact absurd rfl hM
    | cons a b => exact ⟨a, b, rfl⟩
  have hxfix := trimLeft_fix_head hMl
  have hx32 : x ≠ 32 := by
    intro he
    subst he
    rw [decodeRune_one _ _ (by omega)] at hxfix
    simp [isSpaceRune] at hxfix
  have hx9 : x ≠ 9 := by
    intro he
    subst he
    rw [decodeRune_one _ _ (by omega)] at hxfix
    simp [isSpaceRune] at hxfix
  simp only [List.headD_cons] at h45 h124 h58
  have hpfxc : httpTLSHandshakePfx = 104 :: str "ttp: TLS handshake error" := by decide
  have hnosplit : ∀ b ∈ (b0 :: t'), isSplitByte b = false :=
    fun b hb => letter_not_split (hlet b hb)
  have hcontains1 : (([32, 9] : List Nat).contains x) = false := by
    simp [List.contains]
    omega
  have hcontains2 : (([32, 9, 45, 124, 58] : List Nat).contains x) = false := by
    simp [List.contains]
    omega
  have hmsgM : trimLeftCut (x :: M') [32, 9, 45, 124, 58] = x :: M' := by
    unfold trimLeftCut
    rw [List.dropWhile_cons, if_neg (by rw [hcontains2]; simp)]
  -- the shared tail computation for the bare-token styles
  have hchain : ∀ d rest, isSplitByte d = true →
      leadingTokenRule ((b0 :: t') ++ (d :: rest)) =
        some (L, trimSpace (trimLeftCut (trimPfx (trimLeftCut (d :: rest) [32, 9]) [58])
          [32, 9, 45, 124, 58])) := by
    intro d rest hd
    unfold leadingTokenRule
    rw [splitLeadingToken_append hnosplit hd]
    simp only [hlev]
  have hmsg_space : trimSpace (trimLeftCut (trimPfx (trimLeftCut (32 :: (x :: M')) [32, 9]) [58])
      [32, 9, 45, 124, 58]) = x :: M' := by
    have s1 : trimLeftCut (32 :: (x :: M')) [32, 9] = x :: M' := by
      unfold trimLeftCut
      rw [List.dropWhile_cons, if_pos (by simp [List.contains]),
        List.dropWhile_cons, if_neg (by rw [hcontains1]; simp)]
    rw [s1]
    have s2 : trimPfx (x :: M') [58] = x :: M' := by
      unfold trimPfx
      rw [if_neg (by rw [isPrefixOf_cons_neq (fun h => h58 h.symm)]; simp)]
    rw [s2, hmsgM, hMt]
  have hmsg_colon : trimSpace (trimLeftCut (trimPfx (trimLeftCut (58 :: 32 :: (x :: M'))
      [32, 9]) [58]) [32, 9, 45, 124, 58]) = x :: M' := by
    have s1 : trimLeftCut (58 :: 32 :: (x :: M')) [32, 9] = 58 :: 32 :: (x :: M') := by
      unfold trimLeftCut
      rw [List.dropWhile_cons, if_neg (by simp [List.contains])]
    rw [s1]
    have s2 : trimPfx (58 :: 32 :: (x :: M')) [58] = 32 :: (x :: M') := by
      unfold trimPfx
      rw [if_pos (by simp [List.isPrefixOf])]
      rfl
    rw [s2]
    have s3 : trimLeftCut (32 :: (x :: M')) [32, 9, 45, 124, 58] = x :: M' := by
      unfold trimLeftCut
      rw [List.dropWhile_cons, if_pos (by simp [List.contains]), List.dropWhile_cons,
        if_neg (by rw [hcontains2]; simp)]
    rw [s3, hMt]
  have hmsg_sep : ∀ d, (([32, 9] : List Nat).contains d) = false → d ≠ 58 →
      (([32, 9, 45, 124, 58] : List Nat).contains d) = true →
      trimSpace (trimLeftCut (trimPfx (trimLeftCut (d :: 32 :: (x :: M')) [32, 9]) [58])
        [32, 9, 45, 124, 58]) = x :: M' := by
    intro d hd1 hd58 hdin
    have s1 : trimLeftCut (d :: 32 :: (x :: M')) [32, 9] = d :: 32 :: (x :: M') := by
      unfold trimLeftCut
      rw [List.dropWhile_cons, if_neg (by rw [hd1]; simp)]
    rw [s1]
    have s2 : trimPfx (d :: 32 :: (x :: M')) [58] = d :: 32 :: (x :: M') := by
      unfold trimPfx
      rw [if_neg (by rw [isPrefixOf_cons_neq (fun h => hd58 h.symm)]; simp)]
    rw [s2]
    have s3 : trimLeftCut (d :: 32 :: (x :: M')) [32, 9, 45, 124, 58] = x :: M' := by
      unfold trimLeftCut
      rw [List.dropWhile_cons,
        if_pos (show ((fun b => ([32, 9, 45, 124, 58] : List Nat).contains b) d) = true
          from hdin),
        List.dropWhile_cons, if_pos (by simp [List.contains]), List.dropWhile_cons,
        if_neg (by rw [hcontains2]; simp)]
    rw [s3, hMt]
  have htrimBare : ∀ pre : ByteStr,
      trimSpace (((b0 :: t') ++ (pre ++ [32])) ++ (x :: M')) =
        ((b0 :: t') ++ (pre ++ [32])) ++ (x :: M') := by
    intro pre
    refine trimSpace_construct (by simp) ?_ ?_ (by simp) hMr
    · rw [show ((b0 :: t') ++ (pre ++ [32])) ++ (x :: M') =
        b0 :: ((t' ++ (pre ++ [32])) ++ (x :: M')) by simp, decodeRune_one _ _ hb0low]
      exact hb0nsp
    · rw [show (b0 :: t') ++ (pre ++ [32]) = ((b0 :: t') ++ pre) ++ [32] by simp,
        getD_append_last]
      omega
  have htrimB : trimSpace (91 :: ((b0 :: t') ++ (93 :: 32 :: (x :: M')))) =
      91 :: ((b0 :: t') ++ (93 :: 32 :: (x :: M'))) := by
    have hassoc : 91 :: ((b0 :: t') ++ (93 :: 32 :: (x :: M'))) =
        ((91 :: (b0 :: t')) ++ [93, 32]) ++ (x :: M') := by simp
    rw [hassoc]
    refine trimSpace_construct (by simp) ?_ ?_ (by simp) hMr
    · rw [show ((91 :: (b0 :: t')) ++ [93, 32]) ++ (x :: M') =
        91 :: (((b0 :: t') ++ [93, 32]) ++ (x :: M')) by simp, decodeRune_one _ _ (by omega)]
      decide
    · rw [show (91 :: (b0 :: t')) ++ [93, 32] = ((91 :: (b0 :: t')) ++ [93]) ++ [32] by simp,
        getD_append_last]
      omega
  have hidxB : indexOfByte (91 :: ((b0 :: t') ++ (93 :: 32 :: (x :: M')))) 93 =
      some ((b0 :: t').length + 1) := by
    rw [indexOfByte_cons_ne (by omega),
      indexOfByte_append_of_not_mem (fun b hb => by have := hlet b hb; omega)]
    rfl
  have hbracketEval : classifyTrimmed (91 :: ((b0 :: t') ++ (93 :: 32 :: (x :: M')))) =
      (L, x :: M') := by
    have hbr : bracketRule (91 :: ((b0 :: t') ++ (93 :: 32 :: (x :: M')))) =
        some (L, x :: M') := by
      unfold bracketRule
      rw [if_pos (show (91 :: ((b0 :: t') ++ (93 :: 32 :: (x :: M')))).head? = some 91
        from rfl), hidxB]
      simp only
      rw [if_pos (by simp only [List.length_cons]; omega),
        show (b0 :: t').length + 1 - 1 = (b0 :: t').length by omega]
      simp only [List.drop_one, List.tail_cons]
      rw [List.take_left, hlev]
      simp only
      rw [show (b0 :: t').length + 1 + 1 = ((91 :: (b0 :: t')) ++ [93]).length by simp,
        show 91 :: ((b0 :: t') ++ (93 :: 32 :: (x :: M'))) =
          ((91 :: (b0 :: t')) ++ [93]) ++ (32 :: (x :: M')) by simp,
        List.drop_left, trimSpace_cons_space hMl hMr]
    unfold classifyTrimmed
    rw [if_neg (by simp), if_neg (by rw [hpfxc, isPrefixOf_cons_neq (by omega)]; simp), hbr]
  have hbareEval : ∀ d rest, isSplitByte d = true →
      trimSpace (trimLeftCut (trimPfx (trimLeftCut (d :: rest) [32, 9]) [58])
        [32, 9, 45, 124, 58]) = x :: M' →
      classifyTrimmed ((b0 :: t') ++ (d :: rest)) = (L, x :: M') := by
    intro d rest hd hmsg
    have hbrn : bracketRule ((b0 :: t') ++ (d :: rest)) = none := by
      unfold bracketRule
      rw [if_neg (by
        rw [show (b0 :: t') ++ (d :: rest) = b0 :: (t' ++ (d :: rest)) from rfl]
        simp only [List.head?_cons, Option.some.injEq]
        omega)]
    unfold classifyTrimmed
    rw [if_neg (by simp), if_neg (by
        rw [show (b0 :: t') ++ (d :: rest) = b0 :: (t' ++ (d :: rest)) from rfl, hpfxc,
          isPrefixOf_cons_neq (fun h => hb0n104 h.symm)]
        simp),
      hbrn, hchain d rest hd, hmsg]
  refine ⟨?_, ?_, ?_, ?_, ?_⟩
  · unfold classifyLogLine
    rw [htrimB]
    exact hbracketEval
  · unfold classifyLogLine
    have hsh : (b0 :: t') ++ (32 :: (x :: M')) =
        ((b0 :: t') ++ (([] : ByteStr) ++ [32])) ++ (x :: M') := by simp
    rw [hsh, htrimBare [], ← hsh]
    exact hbareEval 32 (x :: M') (by decide) hmsg_space
  · unfold classifyLogLine
    have hsh : (b0 :: t') ++ (58 :: 32 :: (x :: M')) =
        ((b0 :: t') ++ ([58] ++ [32])) ++ (x :: M') := by simp
    rw [hsh, htrimBare [58], ← hsh]
    exact hbareEval 58 (32 :: (x :: M')) (by decide) hmsg_colon
  · unfold classifyLogLine
    have hsh : (b0 :: t') ++ (124 :: 32 :: (x :: M')) =
        ((b0 :: t') ++ ([124] ++ [32])) ++ (x :: M') := by simp
    rw [hsh, htrimBare [124], ← hsh]
    exact hbareEval 124 (32 :: (x :: M')) (by decide)
      (hmsg_sep 124 (by decide) (by decide) (by decide))
  · unfold classifyLogLine
    have hsh : (b0 :: t') ++ (45 :: 32 :: (x :: M')) =
        ((b0 :: t') ++ ([45] ++ [32])) ++ (x :: M') := by simp
    rw [hsh, htrimBare [45], ← hsh]
    exact hbareEval 45 (32 :: (x :: M')) (by decide)
      (hmsg_sep 45 (by decide) (by decide) (by decide))

/-! ## Claim theorems: counterexamples, witnesses, remaining claims -/

/-- C4, counterexample to the original claim: the message is not returned
byte-for-byte for every non-empty `M` — a message starting with `-` has the
leading hyphen stripped by the bare-token rule. -/
theorem classifyLogLine_token_styles_counterexample :
    classifyLogLine (str "info: -v flag") = (.InfoLevel, str "v flag") ∧
    str "v flag" ≠ str "-v flag" := by
  constructor <;> decide

/-- C4 witness at a concrete input, discharging every hypothesis of the
amended theorem. -/
theorem classifyLogLine_token_styles_witness :
    ((str "INFO").map toLowerASCII, Level.InfoLevel) ∈ canonicalTokens ∧
    classifyLogLine (91 :: (str "INFO" ++ (93 :: 32 :: str "ready"))) =
      (.InfoLevel, str "ready") ∧
    classifyLogLine (str "INFO" ++ (32 :: str "ready")) = (.InfoLevel, str "ready") ∧
    classifyLogLine (str "INFO" ++ (58 :: 32 :: str "ready")) = (.InfoLevel, str "ready") ∧
    classifyLogLine (str "INFO" ++ (124 :: 32 :: str "ready")) = (.InfoLevel, str "ready") ∧
    classifyLogLine (str "INFO" ++ (45 :: 32 :: str "ready")) = (.InfoLevel, str "ready") := by
  have h := classifyLogLine_token_styles (str "INFO") (str "ready") .InfoLevel (by decide)
    (by decide) (by decide) (by decide) (by decide) (by decide)
  exact ⟨by decide, h.1, h.2.1, h.2.2.1, h.2.2.2.1, h.2.2.2.2⟩

/-- C1 witness at a concrete line carrying the TLS handshake prefix. -/
theorem classifyLogLine_tls_prefix_witness :
    httpTLSHandshakePfx.isPrefixOf (str "http: TLS handshake error: x") = true ∧
    classifyLogLine (str "http: TLS handshake error: x") =
      (.ErrorLevel, trimLeftCut
        (trimSpace ((trimSpace (str "http: TLS handshake error: x")).drop 25)) [58, 32]) :=
  ⟨by decide, classifyLogLine_tls_prefix.1 _ (by decide)⟩

/-- C9 witness: a whitespace-only line and an unclassifiable line. -/
theorem classifyLogLine_total_witness :
    classifyLogLine (str "   ") = (.NoLevel, []) ∧
    classifyLogLine (str "plain message") = (.NoLevel, trimSpace (str "plain message")) :=
  ⟨(classifyLogLine_total (str "   ")).1 (by decide),
   (classifyLogLine_total (str "plain message")).2 (by decide) (by decide) (by decide)
     (by decide) (by decide)⟩

/-- C7 — when no higher-priority rule matches and the trimmed line contains
the substring `error` case-insensitively at first index `i`, the classifier
returns Error; the message is the text after the match with whitespace and
leading `": "` stripped when that stripped text is non-empty, and the full
trimmed line otherwise; in particular the spec's example yields
`(Error, "code 42")`. -/
theorem classifyLogLine_error_fallback :
    (∀ (s : ByteStr) (i : Nat),
      httpTLSHandshakePfx.isPrefixOf (trimSpace s) = false →
      bracketRule (trimSpace s) = none →
      leadingTokenRule (trimSpace s) = none →
      delimTokenRule (trimSpace s) = none →
      indexErrorSubstring (trimSpace s) = some i →
      classifyLogLine s =
        (let m := if i + 5 < (trimSpace s).length then
            trimLeftCut (trimSpace ((trimSpace s).drop (i + 5))) [58, 32]
          else [];
        (Level.ErrorLevel, if m = [] then trimSpace s else m))) ∧
    classifyLogLine (str "request failed with unexpected ERROR code 42") =
      (.ErrorLevel, str "code 42") := by
  constructor
  · intro s i h1 h2 h3 h4 hidx
    have hne : trimSpace s ≠ [] := by
      intro he
      rw [he] at hidx
      simp [indexErrorSubstring] at hidx
    unfold classifyLogLine classifyTrimmed
    rw [if_neg hne, if_neg (by simp [h1]), h2, h3, h4]
    unfold errorFallback
    rw [hidx]
  · decide

/-- C7 witness at a concrete line matched only by the substring fallback. -/
theorem classifyLogLine_error_fallback_witness :
    indexErrorSubstring (trimSpace (str "xerror: boom")) = some 1 ∧
    classifyLogLine (str "xerror: boom") = (.ErrorLevel, str "boom") := by
  have h := classifyLogLine_error_fallback.1 (str "xerror: boom") 1 (by decide) (by decide)
    (by decide) (by decide) (by decide)
  exact ⟨by decide, by rw [h]; decide⟩

/-- C8 — a console-mode string value is rendered quoted exactly when
`needsQuote` holds, and `needsQuote` holds exactly when some byte is a
space, a backslash, a double quote, or lies outside printable ASCII
(below 0x20 or above 0x7e). -/
theorem needsQuote_characterisation (s : ByteStr) :
    formatConsoleValue (.vstr s) = (if needsQuote s then goQuote s else s) ∧
    (needsQuote s = true ↔ ∃ b ∈ s, b = 32 ∨ b = 92 ∨ b = 34 ∨ b < 32 ∨ 126 < b) := by
  refine ⟨rfl, ?_⟩
  unfold needsQuote
  rw [List.any_eq_true]
  constructor
  · rintro ⟨b, hb, hcond⟩
    refine ⟨b, hb, ?_⟩
    simp at hcond
    omega
  · rintro ⟨b, hb, hcond⟩
    refine ⟨b, hb, ?_⟩
    simp
    omega

/-- C2 — the byte 0xFF is invalid UTF-8 and the spec requires it to be
escaped as a backslash-u-f-f-f-d sequence, but `appendJSONString` copies it through verbatim:
the fast-path guard `r >= 0x20` also accepts the replacement rune 0xFFFD
produced for invalid bytes, so the dedicated escape arm never runs. -/
theorem appendJSONString_invalid_byte_verbatim :
    appendJSONString [] [255] = [34, 255, 34] ∧
    appendJSONString [] [255] ≠ [34, 92, 117, 102, 102, 102, 100, 34] := by
  constructor <;> decide

/-- C3 — a structured-mode line need not be valid JSON: a field value
containing the invalid byte 0xFF reaches the output verbatim, so the line
is not valid UTF-8 and hence not a valid JSON text (RFC 8259 §8.1). -/
theorem writeStructured_not_valid_json :
    validUtf8 (writeStructured [] .InfoLevel (str "m") [⟨str "k", .vstr [255]⟩] [] false
      verboseFieldNames false false) = false := by decide

/-! ## No ANSI escape byte when color is disabled (C5) -/

theorem hexDigits_getD_ne_esc (i : Nat) : hexDigits.getD i 0 ≠ 27 := by
  rcases Nat.lt_or_ge i 16 with h | h
  · interval_cases i <;> decide
  · rw [List.getD_eq_default _ _ (by rw [show hexDigits.length = 16 from by decide]; omega)]
    omega

theorem decodeRune_invalid_high {c : Nat} {t : ByteStr}
    (h : decodeRune (c :: t) = (65533, 1)) : 128 ≤ c := by
  by_contra hc
  push_neg at hc
  rw [decodeRune_one _ _ hc] at h
  simp at h
  omega

/-- Every byte of the window consumed for a rune whose first byte is high is
itself high. -/
theorem decodeRune_take_high {c : Nat} {t : ByteStr} (hc : 128 ≤ c) :
    ∀ b ∈ (c :: t).take (decodeRune (c :: t)).2, 128 ≤ b := by
  intro b hb
  have heta : decodeRune (c :: t) = ((decodeRune (c :: t)).1, (decodeRune (c :: t)).2) := rfl
  rcases decodeRune_snd_cases (c :: t) with h | h | h | h | h
  · rw [h] at hb
    simp at hb
  · rw [h] at hb
    simp at hb
    omega
  · rw [h] at heta hb
    obtain ⟨b0, b1, t2, he, c1, c2, c3, -⟩ := decodeRune_size_two heta
    obtain ⟨he0, he1⟩ := List.cons.inj he
    rw [he1] at hb
    have := isCont_iff.mp c3
    simp at hb
    rcases hb with rfl | rfl <;> omega
  · rw [h] at heta hb
    obtain ⟨b0, b1, b2, t2, he, c1, c2, c3, c4, -⟩ := decodeRune_size_three heta
    obtain ⟨he0, he1⟩ := List.cons.inj he
    rw [he1] at hb
    have ha := accept3_bounds c3
    have := isCont_iff.mp c4
    simp at hb
    rcases hb with rfl | rfl | rfl <;> omega
  · rw [h] at heta hb
    obtain ⟨b0, b1, b2, b3, t2, he, c1, c2, c3, c4, c5, -⟩ := decodeRune_size_four heta
    obtain ⟨he0, he1⟩ := List.cons.inj he
    rw [he1] at hb
    have ha := accept4_bounds c3
    have h5 := isCont_iff.mp c4
    have h6 := isCont_iff.mp c5
    simp at hb
    rcases hb with rfl | rfl | rfl | rfl <;> omega

theorem jsonEscape_no_esc {r size : Nat} {raw : ByteStr}
    (hr : r < 32 ∨ r = 34 ∨ r = 92) : ∀ b ∈ jsonEscape r size raw, b ≠ 27 := by
  intro b hb
  have hhex := hexDigits_getD_ne_esc
  rcases hr with hr | rfl | rfl
  · unfold jsonEscape at hb
    rw [if_neg (by simp; omega)] at hb
    by_cases h8 : r = 8
    · rw [if_pos h8] at hb
      simp at hb
      omega
    · rw [if_neg h8] at hb
      by_cases h12 : r = 12
      · rw [if_pos h12] at hb
        simp at hb
        omega
      · rw [if_neg h12] at hb
        by_cases h10 : r = 10
        · rw [if_pos h10] at hb
          simp at hb
          omega
        · rw [if_neg h10] at hb
          by_cases h13 : r = 13
          · rw [if_pos h13] at hb
            simp at hb
            omega
          · rw [if_neg h13] at hb
            by_cases h9 : r = 9
            · rw [if_pos h9] at hb
              simp at hb
              omega
            · rw [if_neg h9, if_pos hr] at hb
              simp only [List.mem_cons, List.not_mem_nil, or_false] at hb
              rcases hb with rfl | rfl | rfl | rfl | rfl | rfl
              · omega
              · omega
              · omega
              · omega
              · exact hhex _
              · exact hhex _
  · simp [jsonEscape] at hb
    omega
  · simp [jsonEscape] at hb
    omega

theorem quoteEscape_no_esc (r size : Nat) (raw : ByteStr) :
    ∀ b ∈ quoteEscape r size raw, b ≠ 27 := by
  intro b hb
  have hhex := hexDigits_getD_ne_esc
  unfold quoteEscape at hb
  by_cases hinv : r = 65533 ∧ size = 1
  · rw [if_pos hinv] at hb
    simp only [List.mem_cons, List.not_mem_nil, or_false] at hb
    rcases hb with rfl | rfl | rfl | rfl
    · omega
    · omega
    · exact hhex _
    · exact hhex _
  · rw [if_neg hinv] at hb
    by_cases hq : r = 34 ∨ r = 92
    · rw [if_pos hq] at hb
      simp at hb
      rcases hb with rfl | rfl <;> omega
    · rw [if_neg hq] at hb
      by_cases hp : 32 ≤ r ∧ r ≤ 126
      · rw [if_pos hp] at hb
        simp at hb
        omega
      · rw [if_neg hp] at hb
        by_cases h7 : r = 7
        · rw [if_pos h7] at hb
          simp at hb
          omega
        · rw [if_neg h7] at hb
          by_cases h8 : r = 8
          · rw [if_pos h8] at hb
            simp at hb
            omega
          · rw [if_neg h8] at hb
            by_cases h12 : r = 12
            · rw [if_pos h12] at hb
              simp at hb
              omega
            · rw [if_neg h12] at hb
              by_cases h10 : r = 10
              · rw [if_pos h10] at hb
                simp at hb
                omega
              · rw [if_neg h10] at hb
                by_cases h13 : r = 13
                · rw [if_pos h13] at hb
                  simp at hb
                  omega
                · rw [if_neg h13] at hb
                  by_cases h9 : r = 9
                  · rw [if_pos h9] at hb
                    simp at hb
                    omega
                  · rw [if_neg h9] at hb
                    by_cases h11 : r = 11
                    · rw [if_pos h11] at hb
                      simp at hb
                      omega
                    · rw [if_neg h11] at hb
                      by_cases hx : r < 32 ∨ r = 127
                      · rw [if_pos hx] at hb
                        simp only [List.mem_cons, List.not_mem_nil, or_false] at hb
                        rcases hb with rfl | rfl | rfl | rfl
                        · omega
                        · omega
                        · exact hhex _
                        · exact hhex _
                      · rw [if_neg hx] at hb
                        by_cases hu : r < 65536
                        · rw [if_pos hu] at hb
                          simp only [List.mem_cons, List.not_mem_nil, or_false] at hb
                          rcases hb with rfl | rfl | rfl | rfl | rfl | rfl
                          · omega
                          · omega
                          · exact hhex _
                          · exact hhex _
                          · exact hhex _
                          · exact hhex _
                        · rw [if_neg hu] at hb
                          rw [List.mem_append] at hb
                          rcases hb with hb | hb
                          · simp at hb
                            rcases hb with rfl | rfl <;> omega
                          · rw [List.mem_map] at hb
                            obtain ⟨k, -, rfl⟩ := hb
                            exact hhex _

theorem appendJSONStringGo_cons (fuel c : Nat) (t : ByteStr) :
    appendJSONStringGo (fuel + 1) (c :: t) =
      if 32 ≤ (decodeRune (c :: t)).1 ∧ (decodeRune (c :: t)).1 ≠ 34 ∧
          (decodeRune (c :: t)).1 ≠ 92 then
        (c :: t).take (decodeRune (c :: t)).2 ++
          appendJSONStringGo fuel ((c :: t).drop (decodeRune (c :: t)).2)
      else
        jsonEscape (decodeRune (c :: t)).1 (decodeRune (c :: t)).2 (c :: t) ++
          appendJSONStringGo fuel ((c :: t).drop (decodeRune (c :: t)).2) := rfl

theorem appendJSONStringGo_no_esc : ∀ fuel s, ∀ b ∈ appendJSONStringGo fuel s, b ≠ 27
  | 0, s => by simp [appendJSONStringGo]
  | fuel + 1, [] => by simp [appendJSONStringGo]
  | fuel + 1, c :: t => by
    intro b hb
    rw [appendJSONStringGo_cons] at hb
    split at hb
    · rw [List.mem_append] at hb
      rcases hb with hb | hb
      · rcases Nat.lt_or_ge c 128 with hc | hc
        · rw [decodeRune_one _ _ hc] at hb
          simp at hb
          subst hb
          rename_i hg
          rw [decodeRune_one _ _ hc] at hg
          simp at hg
          omega
        · have := decodeRune_take_high hc b hb
          omega
      · exact appendJSONStringGo_no_esc fuel _ b hb
    · rw [List.mem_append] at hb
      rcases hb with hb | hb
      · rename_i hg
        exact jsonEscape_no_esc (by omega) b hb
      · exact appendJSONStringGo_no_esc fuel _ b hb

theorem goQuoteGo_cons (fuel c : Nat) (t : ByteStr) :
    goQuoteGo (fuel + 1) (c :: t) =
      quoteEscape (decodeRune (c :: t)).1 (decodeRune (c :: t)).2 (c :: t) ++
        goQuoteGo fuel ((c :: t).drop (decodeRune (c :: t)).2) := rfl

theorem goQuoteGo_no_esc : ∀ fuel s, ∀ b ∈ goQuoteGo fuel s, b ≠ 27
  | 0, s => by simp [goQuoteGo]
  | fuel + 1, [] => by simp [goQuoteGo]
  | fuel + 1, c :: t => by
    intro b hb
    rw [goQuoteGo_cons, List.mem_append] at hb
    rcases hb with hb | hb
    · exact quoteEscape_no_esc _ _ _ b hb
    · exact goQuoteGo_no_esc fuel _ b hb

theorem goQuote_no_esc (s : ByteStr) : ∀ b ∈ goQuote s, b ≠ 27 := by
  intro b hb
  unfold goQuote at hb
  simp at hb
  rcases hb with rfl | hb | rfl
  · decide
  · exact goQuoteGo_no_esc _ _ b hb
  · decide

theorem appendJSONString_no_esc (buf s : ByteStr) (hbuf : ∀ b ∈ buf, b ≠ 27) :
    ∀ b ∈ appendJSONString buf s, b ≠ 27 := by
  intro b hb
  unfold appendJSONString at hb
  simp at hb
  rcases hb with hb | rfl | hb | rfl
  · exact hbuf b hb
  · decide
  · exact appendJSONStringGo_no_esc _ _ b hb
  · decide

theorem natDigitsRev_bytes : ∀ fuel n, ∀ b ∈ natDigitsRev fuel n, 48 ≤ b ∧ b ≤ 57
  | 0, n => by simp [natDigitsRev]
  | fuel + 1, n => by
    intro b hb
    unfold natDigitsRev at hb
    split at hb
    · simp at hb
    · simp at hb
      rcases hb with h | h
      · omega
      · exact natDigitsRev_bytes fuel (n / 10) b h

theorem intToDecimal_bytes (i : Int) : ∀ b ∈ intToDecimal i, b = 45 ∨ (48 ≤ b ∧ b ≤ 57) := by
  intro b hb
  unfold intToDecimal at hb
  match i with
  | .ofNat n =>
    simp only [natToDecimal] at hb
    split at hb
    · simp at hb
      omega
    · rw [List.mem_reverse] at hb
      exact Or.inr (natDigitsRev_bytes _ _ b hb)
  | .negSucc n =>
    simp only [natToDecimal] at hb
    rcases List.mem_cons.mp hb with rfl | hb
    · omega
    · split at hb
      · simp at hb
        omega
      · rw [List.mem_reverse] at hb
        exact Or.inr (natDigitsRev_bytes _ _ b hb)

theorem formatConsoleValue_no_esc (v : Value) (hv : valueRawNoEsc v = true) :
    ∀ b ∈ formatConsoleValue v, b ≠ 27 := by
  intro b hb
  match v with
  | .vstr s =>
    simp only [formatConsoleValue] at hb
    split at hb
    · exact goQuote_no_esc s b hb
    · rename_i hq
      rw [Bool.not_eq_true] at hq
      unfold needsQuote at hq
      rw [List.any_eq_false] at hq
      have := hq b hb
      simp at this
      omega
  | .vint i =>
    have := intToDecimal_bytes i b hb
    omega
  | .vbool bb =>
    rcases bb <;> simp [formatConsoleValue, str] at hb <;> omega
  | .vstringer s =>
    simp only [formatConsoleValue] at hb
    split at hb
    · exact goQuote_no_esc s b hb
    · rename_i hq
      rw [Bool.not_eq_true] at hq
      unfold needsQuote at hq
      rw [List.any_eq_false] at hq
      have := hq b hb
      simp at this
      omega
  | .vmarshaler m cs =>
    simp only [formatConsoleValue] at hb
    simp only [valueRawNoEsc, Bool.and_eq_true, List.all_eq_true] at hv
    have := hv.2 b hb
    simpa using this

theorem consoleLevel_no_esc (level : Level) : ∀ b ∈ (consoleLevel level).1, b ≠ 27 := by
  rcases level <;> decide

theorem structuredLevel_no_esc (level : Level) : ∀ b ∈ structuredLevel level, b ≠ 27 := by
  rcases level <;> decide

theorem noEsc_append {a c : ByteStr} (ha : ∀ x ∈ a, x ≠ 27) (hc : ∀ x ∈ c, x ≠ 27) :
    ∀ x ∈ a ++ c, x ≠ 27 := by
  intro x hx
  rcases List.mem_append.mp hx with h | h
  · exact ha x h
  · exact hc x h

theorem consoleFold_no_esc : ∀ (fs : List KV) (acc : ByteStr),
    (∀ f ∈ fs, ∀ x ∈ f.key, x ≠ 27) → (∀ f ∈ fs, valueRawNoEsc f.value = true) →
    (∀ x ∈ acc, x ≠ 27) →
    ∀ b ∈ List.foldl (fun b f => b ++ [32] ++ f.key ++ [61] ++ formatConsoleValue f.value) acc fs,
      b ≠ 27
  | [], _, _, _, hacc => by simpa using hacc
  | f :: fs, acc, hks, hvs, hacc => by
    intro b hb
    rw [List.foldl_cons] at hb
    refine consoleFold_no_esc fs _ (fun g hg => hks g (List.mem_cons_of_mem _ hg))
      (fun g hg => hvs g (List.mem_cons_of_mem _ hg)) ?_ b hb
    intro x hx
    simp only [List.mem_append, List.mem_cons, List.not_mem_nil, or_false] at hx
    rcases hx with (((hx | rfl) | hx) | rfl) | hx
    · exact hacc x hx
    · decide
    · exact hks f (List.mem_cons_self f fs) x hx
    · decide
    · exact formatConsoleValue_no_esc f.value (hvs f (List.mem_cons_self f fs)) x hx

theorem writeConsole_false_eq (buf : ByteStr) (level : Level) (msg : ByteStr)
    (fields : List KV) (timestamp : ByteStr) (includeTime : Bool) :
    writeConsole buf level msg fields timestamp includeTime false =
      List.foldl (fun b f => b ++ [32] ++ f.key ++ [61] ++ formatConsoleValue f.value)
        ((if includeTime then buf ++ timestamp ++ [32] else buf) ++ (consoleLevel level).1 ++
          (if msg ≠ [] then [32] ++ msg else [])) fields := by
  rcases includeTime <;> by_cases hm : msg = [] <;>
    simp [writeConsole, hm, List.append_assoc]

theorem writeConsole_no_esc (buf : ByteStr) (level : Level) (msg : ByteStr)
    (fields : List KV) (timestamp : ByteStr) (includeTime : Bool)
    (hbuf : ∀ x ∈ buf, x ≠ 27) (hts : ∀ x ∈ timestamp, x ≠ 27)
    (hmsg : ∀ x ∈ msg, x ≠ 27) (hkeys : ∀ f ∈ fields, ∀ x ∈ f.key, x ≠ 27)
    (hvals : ∀ f ∈ fields, valueRawNoEsc f.value = true) :
    ∀ b ∈ writeConsole buf level msg fields timestamp includeTime false, b ≠ 27 := by
  intro b hb
  rw [writeConsole_false_eq] at hb
  refine consoleFold_no_esc fields _ hkeys hvals ?_ b hb
  refine noEsc_append (noEsc_append ?_ (consoleLevel_no_esc level)) ?_
  · rcases includeTime
    · exact hbuf
    · exact noEsc_append (noEsc_append hbuf hts) (by decide)
  · by_cases hm : msg = []
    · simp [hm]
    · rw [if_pos hm]
      exact noEsc_append (by decide) hmsg

theorem appendSafeStringField_body_no_esc (B key value : ByteStr)
    (hB : ∀ x ∈ B, x ≠ 27) (hval : ∀ x ∈ value, x ≠ 27) :
    ∀ b ∈ (if key = str "time" then B ++ str "\x22time\x22:\x22" ++ value ++ [34]
      else if key = str "ts" then B ++ str "\x22ts\x22:\x22" ++ value ++ [34]
      else if key = str "level" then B ++ str "\x22level\x22:\x22" ++ value ++ [34]
      else if key = str "lvl" then B ++ str "\x22lvl\x22:\x22" ++ value ++ [34]
      else if key = str "msg" then B ++ str "\x22msg\x22:\x22" ++ value ++ [34]
      else if key = str "message" then B ++ str "\x22message\x22:\x22" ++ value ++ [34]
      else appendJSONString (appendJSONString B key ++ [58]) value), b ≠ 27 := by
  intro b hb
  (repeat' split at hb) <;>
    first
      | exact noEsc_append (noEsc_append (noEsc_append hB (by decide)) hval) (by decide) b hb
      | exact appendJSONString_no_esc _ value
          (noEsc_append (appendJSONString_no_esc _ key hB) (by decide)) b hb

theorem appendSafeStringField_no_esc (buf key value : ByteStr) (first : Bool)
    (hbuf : ∀ x ∈ buf, x ≠ 27) (hval : ∀ x ∈ value, x ≠ 27) :
    ∀ b ∈ appendSafeStringField buf key value first, b ≠ 27 := by
  have h1 : ∀ x ∈ (if (!first) then buf ++ [44] else buf), x ≠ 27 := by
    rcases first
    · exact noEsc_append hbuf (by decide)
    · exact hbuf
  exact appendSafeStringField_body_no_esc _ key value h1 hval

theorem appendFastStringField_no_esc (buf key : ByteStr) (pfx : Option ByteStr)
    (value : ByteStr) (first : Bool)
    (hbuf : ∀ x ∈ buf, x ≠ 27) (hval : ∀ x ∈ value, x ≠ 27)
    (hpfx : ∀ p, pfx = some p → ∀ x ∈ p, x ≠ 27) :
    ∀ b ∈ appendFastStringField buf key pfx value first, b ≠ 27 := by
  have h1 : ∀ x ∈ (if (!first) then buf ++ [44] else buf), x ≠ 27 := by
    rcases first
    · exact noEsc_append hbuf (by decide)
    · exact hbuf
  match pfx with
  | none => exact appendSafeStringField_no_esc buf key value first hbuf hval
  | some p =>
    exact noEsc_append (noEsc_append (noEsc_append h1 (hpfx p rfl)) hval) (by decide)

theorem appendQuotedField_no_esc (buf key value : ByteStr) (first : Bool)
    (hbuf : ∀ x ∈ buf, x ≠ 27) :
    ∀ b ∈ appendQuotedField buf key value first, b ≠ 27 := by
  have h1 : ∀ x ∈ (if (!first) then buf ++ [44] else buf), x ≠ 27 := by
    rcases first
    · exact noEsc_append hbuf (by decide)
    · exact hbuf
  exact appendJSONString_no_esc _ value
    (noEsc_append (appendJSONString_no_esc _ key h1) (by decide))

theorem writePair_no_esc (buf : ByteStr) (first : Bool) (level : Level)
    (key : ByteStr) (value : Value) (kind : JsonValueKind)
    (hv : valueRawNoEsc value = true) (hbuf : ∀ x ∈ buf, x ≠ 27) :
    ∀ b ∈ writePair buf first level false key value kind, b ≠ 27 := by
  have h1 : ∀ x ∈ (if (!first) then buf ++ [44] else buf), x ≠ 27 := by
    rcases first
    · exact noEsc_append hbuf (by decide)
    · exact hbuf
  have h2 : ∀ x ∈ writeJSONKey (if (!first) then buf ++ [44] else buf) key false ++ [58],
      x ≠ 27 := by
    refine noEsc_append ?_ (by decide)
    show ∀ x ∈ appendJSONString (if (!first) then buf ++ [44] else buf) key, x ≠ 27
    exact appendJSONString_no_esc _ _ h1
  rcases kind
  · rcases value with s | i | bb | s | ⟨m, cs⟩
    · exact appendJSONString_no_esc _ _ h2
    · refine noEsc_append h2 ?_
      intro x hx
      have := intToDecimal_bytes i x hx
      omega
    · refine noEsc_append h2 ?_
      rcases bb <;> decide
    · exact appendJSONString_no_esc _ _ h2
    · refine noEsc_append h2 ?_
      simp only [valueRawNoEsc, Bool.and_eq_true, List.all_eq_true] at hv
      intro x hx
      simpa using hv.1 x hx
  · exact noEsc_append h2 (goQuote_no_esc _)
  · rcases value with s | i | bb | s | ⟨m, cs⟩
    · exact appendJSONString_no_esc _ _ h2
    · exact appendJSONString_no_esc _ _ h2
    · exact appendJSONString_no_esc _ _ h2
    · exact appendJSONString_no_esc _ _ h2
    · exact appendJSONString_no_esc _ _ h2

theorem structuredFold_no_esc : ∀ (fs : List KV) (acc : ByteStr) (level : Level),
    (∀ f ∈ fs, valueRawNoEsc f.value = true) → (∀ x ∈ acc, x ≠ 27) →
    ∀ b ∈ List.foldl (fun buf f => writePair buf false level false f.key f.value .default) acc fs,
      b ≠ 27
  | [], _, _, _, hacc => by simpa using hacc
  | f :: fs, acc, level, hvs, hacc => by
    intro b hb
    rw [List.foldl_cons] at hb
    exact structuredFold_no_esc fs _ level (fun g hg => hvs g (List.mem_cons_of_mem _ hg))
      (writePair_no_esc _ _ _ _ _ _ (hvs f (List.mem_cons_self f fs)) hacc) b hb

theorem writeStructuredFast_no_esc (buf : ByteStr) (level : Level) (msg timestamp : ByteStr)
    (includeTime : Bool) (names : FieldNames)
    (hbuf : ∀ x ∈ buf, x ≠ 27) (hts : ∀ x ∈ timestamp, x ≠ 27) (hmsg : ∀ x ∈ msg, x ≠ 27)
    (hnames : names = shortFieldNames ∨ names = verboseFieldNames) :
    ∀ b ∈ writeStructuredFast buf level msg timestamp includeTime names, b ≠ 27 := by
  have hTime : ∀ p, names.timePfx = some p → ∀ x ∈ p, x ≠ 27 := by
    rcases hnames with rfl | rfl <;>
      · intro p hp
        simp only [shortFieldNames, verboseFieldNames, Option.some.injEq] at hp
        subst hp
        decide
  have hLevel : ∀ p, names.levelPfx = some p → ∀ x ∈ p, x ≠ 27 := by
    rcases hnames with rfl | rfl <;>
      · intro p hp
        simp only [shortFieldNames, verboseFieldNames, Option.some.injEq] at hp
        subst hp
        decide
  have hMsgPfx : ∀ p, names.messagePfx = some p → ∀ x ∈ p, x ≠ 27 := by
    rcases hnames with rfl | rfl <;>
      · intro p hp
        simp only [shortFieldNames, verboseFieldNames, Option.some.injEq] at hp
        subst hp
        decide
  have h1 : ∀ x ∈ buf ++ [123], x ≠ 27 := noEsc_append hbuf (by decide)
  have h2 : ∀ x ∈ (if includeTime then
      appendFastStringField (buf ++ [123]) names.time names.timePfx timestamp true
      else buf ++ [123]), x ≠ 27 := by
    rcases includeTime
    · rw [if_neg (by simp)]
      exact h1
    · rw [if_pos rfl]
      exact appendFastStringField_no_esc _ _ _ _ _ h1 hts hTime
  have h3 : ∀ x ∈ appendFastStringField (if includeTime then
      appendFastStringField (buf ++ [123]) names.time names.timePfx timestamp true
      else buf ++ [123]) names.level names.levelPfx (structuredLevel level) (!includeTime),
      x ≠ 27 :=
    appendFastStringField_no_esc _ _ _ _ _ h2 (structuredLevel_no_esc level) hLevel
  have h4 : ∀ x ∈ (if msg ≠ [] then
      (if needsQuote msg then
        appendQuotedField (appendFastStringField (if includeTime then
          appendFastStringField (buf ++ [123]) names.time names.timePfx timestamp true
          else buf ++ [123]) names.level names.levelPfx (structuredLevel level) (!includeTime))
          names.message msg false
       else
        appendFastStringField (appendFastStringField (if includeTime then
          appendFastStringField (buf ++ [123]) names.time names.timePfx timestamp true
          else buf ++ [123]) names.level names.levelPfx (structuredLevel level) (!includeTime))
          names.message names.messagePfx msg false)
      else appendFastStringField (if includeTime then
        appendFastStringField (buf ++ [123]) names.time names.timePfx timestamp true
        else buf ++ [123]) names.level names.levelPfx (structuredLevel level) (!includeTime)),
      x ≠ 27 := by
    by_cases hm : msg = []
    · rw [if_neg (by simp [hm])]
      exact h3
    · rw [if_pos hm]
      by_cases hq : needsQuote msg = true
      · rw [if_pos hq]
        exact appendQuotedField_no_esc _ _ _ _ h3
      · rw [if_neg hq]
        exact appendFastStringField_no_esc _ _ _ _ _ h3 hmsg hMsgPfx
  exact fun b hb => noEsc_append h4 (by decide) b hb

theorem writeStructured_false_nil (buf : ByteStr) (level : Level) (msg : ByteStr)
    (timestamp : ByteStr) (includeTime : Bool) (names : FieldNames)
    (colorJSON colorEnabled : Bool) (hcol : (colorJSON && colorEnabled) = false) :
    writeStructured buf level msg [] timestamp includeTime names colorJSON colorEnabled =
      writeStructuredFast buf level msg timestamp includeTime names := by
  unfold writeStructured
  rw [hcol]
  rfl

theorem writeStructured_false_cons (buf : ByteStr) (level : Level) (msg : ByteStr)
    (f0 : KV) (fs : List KV) (timestamp : ByteStr) (includeTime : Bool) (names : FieldNames)
    (colorJSON colorEnabled : Bool) (hcol : (colorJSON && colorEnabled) = false) :
    writeStructured buf level msg (f0 :: fs) timestamp includeTime names colorJSON
        colorEnabled =
      List.foldl (fun buf f => writePair buf false level false f.key f.value .default)
        (if msg ≠ [] then
          writePair (writePair (if includeTime then
              writePair (buf ++ [123]) true level false names.time (.vstr timestamp) .default
            else buf ++ [123]) (!includeTime) level false names.level
            (.vstr (structuredLevel level)) .level) false level false names.message
            (.vstr msg) .message
        else
          writePair (if includeTime then
              writePair (buf ++ [123]) true level false names.time (.vstr timestamp) .default
            else buf ++ [123]) (!includeTime) level false names.level
            (.vstr (structuredLevel level)) .level)
        (f0 :: fs) ++ [125] := by
  unfold writeStructured
  rw [hcol]
  rfl

theorem writeStructured_no_esc (buf : ByteStr) (level : Level) (msg : ByteStr)
    (fields : List KV) (timestamp : ByteStr) (includeTime : Bool) (names : FieldNames)
    (colorJSON colorEnabled : Bool) (hcol : (colorJSON && colorEnabled) = false)
    (hbuf : ∀ x ∈ buf, x ≠ 27) (hts : ∀ x ∈ timestamp, x ≠ 27)
    (hmsg : ∀ x ∈ msg, x ≠ 27)
    (hnames : names = shortFieldNames ∨ names = verboseFieldNames)
    (hvals : ∀ f ∈ fields, valueRawNoEsc f.value = true) :
    ∀ b ∈ writeStructured buf level msg fields timestamp includeTime names colorJSON
        colorEnabled, b ≠ 27 := by
  intro b hb
  match fields with
  | [] =>
    rw [writeStructured_false_nil buf level msg timestamp includeTime names _ _ hcol] at hb
    exact writeStructuredFast_no_esc buf level msg timestamp includeTime names
      hbuf hts hmsg hnames b hb
  | f0 :: fs =>
    rw [writeStructured_false_cons buf level msg f0 fs timestamp includeTime names _ _ hcol]
      at hb
    have hA : ∀ x ∈ buf ++ [123], x ≠ 27 := noEsc_append hbuf (by decide)
    have hB : ∀ x ∈ (if includeTime then
        writePair (buf ++ [123]) true level false names.time (.vstr timestamp) .default
        else buf ++ [123]), x ≠ 27 := by
      rcases includeTime
      · rw [if_neg (by simp)]
        exact hA
      · rw [if_pos rfl]
        exact writePair_no_esc _ _ _ _ _ _ rfl hA
    have hC : ∀ x ∈ writePair (if includeTime then
        writePair (buf ++ [123]) true level false names.time (.vstr timestamp) .default
        else buf ++ [123]) (!includeTime) level false names.level
        (.vstr (structuredLevel level)) .level, x ≠ 27 :=
      writePair_no_esc _ _ _ _ _ _ rfl hB
    have hinit : ∀ x ∈ (if msg ≠ [] then
        writePair (writePair (if includeTime then
            writePair (buf ++ [123]) true level false names.time (.vstr timestamp) .default
          else buf ++ [123]) (!includeTime) level false names.level
          (.vstr (structuredLevel level)) .level) false level false names.message
          (.vstr msg) .message
      else
        writePair (if includeTime then
            writePair (buf ++ [123]) true level false names.time (.vstr timestamp) .default
          else buf ++ [123]) (!includeTime) level false names.level
          (.vstr (structuredLevel level)) .level), x ≠ 27 := by
      by_cases hm : msg = []
      · rw [if_neg (by simp [hm])]
        exact hC
      · rw [if_pos hm]
        exact writePair_no_esc _ _ _ _ _ _ rfl hC
    rcases List.mem_append.mp hb with h | h
    · exact structuredFold_no_esc (f0 :: fs) _ level hvals hinit b h
    · simp at h
      omega

/-- C5 counterexample: with color disabled everywhere, a raw ESC byte (0x1b)
is copied verbatim into the output line — through the message in console
mode, through a `json.Marshaler` field value's `fmt.Sprint` rendering
(`formatConsoleValue`'s `default:` arm) in console mode, and through a
`json.Marshaler` field value's `MarshalJSON` bytes (`writeJSONRawPlain`) in
structured mode — so the universally quantified claim over every message
string and field list fails. -/
theorem encoder_esc_leak_counterexample :
    27 ∈ writeConsole [] .InfoLevel [27] [] [] false false ∧
    27 ∈ writeConsole [] .InfoLevel (str "m")
        [⟨str "k", .vmarshaler (str "null") [27]⟩] [] false false ∧
    27 ∈ writeStructured [] .InfoLevel (str "m")
        [⟨str "k", .vmarshaler [27] (str "x")⟩] [] false shortFieldNames false false := by
  refine ⟨by decide, by decide, by decide⟩

/-- C5 (amended): when color is disabled (console `color = false`; structured
`colorJSON && colorEnabled = false`), the caller-supplied byte strings —
buffer, timestamp, message and field keys — are themselves free of the ANSI
escape byte 0x1b, every field value's verbatim-copied renderings (the
`MarshalJSON` bytes and `fmt.Sprint` text of a `json.Marshaler`) are
escape-free, and the configured field names are one of the two name sets of
the source, then neither the console-mode nor the structured-mode output
contains the escape byte, for every severity, field list and timestamp. -/
theorem encoder_no_esc_when_color_disabled
    (buf : ByteStr) (level : Level) (msg : ByteStr) (fields : List KV)
    (timestamp : ByteStr) (includeTime : Bool) (names : FieldNames)
    (colorJSON colorEnabled : Bool)
    (hcol : (colorJSON && colorEnabled) = false)
    (hbuf : ∀ x ∈ buf, x ≠ 27) (hts : ∀ x ∈ timestamp, x ≠ 27)
    (hmsg : ∀ x ∈ msg, x ≠ 27) (hkeys : ∀ f ∈ fields, ∀ x ∈ f.key, x ≠ 27)
    (hnames : names = shortFieldNames ∨ names = verboseFieldNames)
    (hvals : ∀ f ∈ fields, valueRawNoEsc f.value = true) :
    (∀ b ∈ writeConsole buf level msg fields timestamp includeTime false, b ≠ 27) ∧
    (∀ b ∈ writeStructured buf level msg fields timestamp includeTime names colorJSON
        colorEnabled, b ≠ 27) :=
  ⟨writeConsole_no_esc buf level msg fields timestamp includeTime hbuf hts hmsg hkeys hvals,
   writeStructured_no_esc buf level msg fields timestamp includeTime names colorJSON
     colorEnabled hcol hbuf hts hmsg hnames hvals⟩

/-- C5 witness at a concrete escape-free record, in both output modes. -/
theorem encoder_no_esc_when_color_disabled_witness :
    ((false && false) = false) ∧
    (∀ b ∈ writeConsole [] .InfoLevel (str "ready") [⟨str "k", .vstr (str "v")⟩]
        (str "120000") true false, b ≠ 27) ∧
    (∀ b ∈ writeStructured [] .InfoLevel (str "ready") [⟨str "k", .vstr (str "v")⟩]
        (str "120000") true shortFieldNames false false, b ≠ 27) :=
  ⟨rfl,
    (encoder_no_esc_when_color_disabled [] .InfoLevel (str "ready")
      [⟨str "k", .vstr (str "v")⟩] (str "120000") true shortFieldNames false false rfl
      (by decide) (by decide) (by decide) (by decide) (Or.inl rfl) (by decide)).1,
    (encoder_no_esc_when_color_disabled [] .InfoLevel (str "ready")
      [⟨str "k", .vstr (str "v")⟩] (str "120000") true shortFieldNames false false rfl
      (by decide) (by decide) (by decide) (by decide) (Or.inl rfl) (by decide)).2⟩

theorem appendJSONStringGo_congr : ∀ (f1 : Nat) (s : ByteStr) (f2 : Nat),
    s.length ≤ f1 → s.length ≤ f2 → appendJSONStringGo f1 s = appendJSONStringGo f2 s
  | 0, s, f2, h1, _ => by
    have hs : s = [] := List.length_eq_zero.mp (Nat.le_zero.mp h1)
    subst hs
    match f2 with
    | 0 => rfl
    | f2 + 1 => rfl
  | f1 + 1, [], f2, _, _ => by
    match f2 with
    | 0 => rfl
    | f2 + 1 => rfl
  | f1 + 1, c :: t, f2, h1, h2 => by
    match f2, h2 with
    | 0, h2 => exact absurd h2 (by simp)
    | f2 + 1, h2 =>
      rw [appendJSONStringGo_cons, appendJSONStringGo_cons]
      have hsz := decodeRune_snd_le_length (c :: t)
      have hsz1 := decodeRune_cons_snd_pos c t
      have hl : (c :: t).length = t.length + 1 := rfl
      have hdl : ((c :: t).drop (decodeRune (c :: t)).2).length =
          (c :: t).length - (decodeRune (c :: t)).2 := List.length_drop _ _
      have hb1 : ((c :: t).drop (decodeRune (c :: t)).2).length ≤ f1 := by
        rw [hdl, hl]
        rw [hl] at h1
        omega
      have hb2 : ((c :: t).drop (decodeRune (c :: t)).2).length ≤ f2 := by
        rw [hdl, hl]
        rw [hl] at h2
        omega
      rw [appendJSONStringGo_congr f1 _ f2 hb1 hb2]

theorem validUtf8Go_cons (fuel c : Nat) (t : ByteStr) :
    validUtf8Go (fuel + 1) (c :: t) =
      if (decodeRune (c :: t)).1 = 65533 ∧ (decodeRune (c :: t)).2 = 1 then false
      else validUtf8Go fuel ((c :: t).drop (decodeRune (c :: t)).2) := rfl

theorem validUtf8Go_congr : ∀ (f1 : Nat) (s : ByteStr) (f2 : Nat),
    s.length ≤ f1 → s.length ≤ f2 → validUtf8Go f1 s = validUtf8Go f2 s
  | 0, s, f2, h1, _ => by
    have hs : s = [] := List.length_eq_zero.mp (Nat.le_zero.mp h1)
    subst hs
    match f2 with
    | 0 => rfl
    | f2 + 1 => rfl
  | f1 + 1, [], f2, _, _ => by
    match f2 with
    | 0 => rfl
    | f2 + 1 => rfl
  | f1 + 1, c :: t, f2, h1, h2 => by
    match f2, h2 with
    | 0, h2 => exact absurd h2 (by simp)
    | f2 + 1, h2 =>
      rw [validUtf8Go_cons, validUtf8Go_cons]
      have hsz := decodeRune_snd_le_length (c :: t)
      have hsz1 := decodeRune_cons_snd_pos c t
      have hl : (c :: t).length = t.length + 1 := rfl
      have hdl : ((c :: t).drop (decodeRune (c :: t)).2).length =
          (c :: t).length - (decodeRune (c :: t)).2 := List.length_drop _ _
      have hb1 : ((c :: t).drop (decodeRune (c :: t)).2).length ≤ f1 := by
        rw [hdl, hl]
        rw [hl] at h1
        omega
      have hb2 : ((c :: t).drop (decodeRune (c :: t)).2).length ≤ f2 := by
        rw [hdl, hl]
        rw [hl] at h2
        omega
      rw [validUtf8Go_congr f1 _ f2 hb1 hb2]

theorem validUtf8_cons {c : Nat} {t : ByteStr} (h : validUtf8 (c :: t) = true) :
    ¬((decodeRune (c :: t)).1 = 65533 ∧ (decodeRune (c :: t)).2 = 1) ∧
      validUtf8 ((c :: t).drop (decodeRune (c :: t)).2) = true := by
  unfold validUtf8 at h ⊢
  rw [show (c :: t).length = t.length + 1 from rfl, validUtf8Go_cons] at h
  by_cases hinv : (decodeRune (c :: t)).1 = 65533 ∧ (decodeRune (c :: t)).2 = 1
  · rw [if_pos hinv] at h
    exact absurd h (by simp)
  · rw [if_neg hinv] at h
    refine ⟨hinv, ?_⟩
    have hsz := decodeRune_snd_le_length (c :: t)
    have hsz1 := decodeRune_cons_snd_pos c t
    have hdl : ((c :: t).drop (decodeRune (c :: t)).2).length =
        (c :: t).length - (decodeRune (c :: t)).2 := List.length_drop _ _
    rw [validUtf8Go_congr t.length _ _ (by rw [hdl]; simp at hsz ⊢; omega) (le_refl _)] at h
    exact h

theorem hexVal_hexDigits : ∀ i, i < 16 → hexVal (hexDigits.getD i 0) = some i := by decide

theorem utf8Encode_low {r : Nat} (h : r < 128) : utf8Encode r = [r] := by
  simp [utf8Encode, h]

theorem decodeRune_take_append {c : Nat} {t : ByteStr} {r size : Nat}
    (h : decodeRune (c :: t) = (r, size)) (hval : ¬(r = 65533 ∧ size = 1))
    (rest : ByteStr) :
    decodeRune ((c :: t).take size ++ rest) = (r, size) := by
  rcases decodeRune_snd_cases (c :: t) with hs | hs | hs | hs | hs <;>
    rw [h] at hs <;> simp only at hs <;> subst hs
  · have := decodeRune_cons_snd_pos c t
    rw [h] at this
    simp at this
  · obtain ⟨t2, he, hlow⟩ := decodeRune_size_one h (fun hr => hval ⟨hr, rfl⟩)
    obtain ⟨hc, -⟩ := List.cons.inj he
    rw [← hc]
    show decodeRune (c :: rest) = (c, 1)
    exact decodeRune_one c rest (hc ▸ hlow)
  · obtain ⟨b0, b1, t2, he, h1, h2, h3, h4⟩ := decodeRune_size_two h
    rw [he]
    show decodeRune (b0 :: b1 :: rest) = (r, 2)
    rw [decodeRune_two b0 b1 rest h1 h2 h3, h4]
  · obtain ⟨b0, b1, b2, t2, he, h1, h2, h3, h4, h5⟩ := decodeRune_size_three h
    rw [he]
    show decodeRune (b0 :: b1 :: b2 :: rest) = (r, 3)
    rw [decodeRune_three b0 b1 b2 rest h1 h2 h3 h4, h5]
  · obtain ⟨b0, b1, b2, b3, t2, he, h1, h2, h3, h4, h5, h6⟩ := decodeRune_size_four h
    rw [he]
    show decodeRune (b0 :: b1 :: b2 :: b3 :: rest) = (r, 4)
    rw [decodeRune_four b0 b1 b2 b3 rest h1 h2 h3 h4 h5, h6]

theorem decodeJSONBody_cons_eq (fuel : Nat) (b : Nat) (t : ByteStr) :
    decodeJSONBody (fuel + 1) (b :: t) =
      (if b = 34 then some ([], t)
       else if b = 92 then
         match t with
         | [] => none
         | e :: rest =>
           if e = 34 then (decodeJSONBody fuel rest).map (fun p => (34 :: p.1, p.2))
           else if e = 92 then (decodeJSONBody fuel rest).map (fun p => (92 :: p.1, p.2))
           else if e = 47 then (decodeJSONBody fuel rest).map (fun p => (47 :: p.1, p.2))
           else if e = 98 then (decodeJSONBody fuel rest).map (fun p => (8 :: p.1, p.2))
           else if e = 102 then (decodeJSONBody fuel rest).map (fun p => (12 :: p.1, p.2))
           else if e = 110 then (decodeJSONBody fuel rest).map (fun p => (10 :: p.1, p.2))
           else if e = 114 then (decodeJSONBody fuel rest).map (fun p => (13 :: p.1, p.2))
           else if e = 116 then (decodeJSONBody fuel rest).map (fun p => (9 :: p.1, p.2))
           else if e = 117 then
             match rest with
             | h1 :: h2 :: h3 :: h4 :: rest4 =>
               match hex4 h1 h2 h3 h4 with
               | none => none
               | some cp =>
                 if 55296 ≤ cp ∧ cp ≤ 56319 then
                   match rest4 with
                   | 92 :: 117 :: g1 :: g2 :: g3 :: g4 :: rest2 =>
                     match hex4 g1 g2 g3 g4 with
                     | some lo =>
                       if 56320 ≤ lo ∧ lo ≤ 57343 then
                         (decodeJSONBody fuel rest2).map
                           (fun p =>
                             (utf8Encode (65536 + (cp - 55296) * 1024 + (lo - 56320)) ++ p.1,
                               p.2))
                       else none
                     | none => none
                   | _ => none
                 else if 56320 ≤ cp ∧ cp ≤ 57343 then none
                 else (decodeJSONBody fuel rest4).map (fun p => (utf8Encode cp ++ p.1, p.2))
             | _ => none
           else none
       else if b < 32 then none
       else if (decodeRune (b :: t)).1 = 65533 ∧ (decodeRune (b :: t)).2 = 1 then none
       else
         (decodeJSONBody fuel ((b :: t).drop (decodeRune (b :: t)).2)).map
           (fun p => ((b :: t).take (decodeRune (b :: t)).2 ++ p.1, p.2))) := rfl

theorem decodeJSONBody_plain_step (f : Nat) (c : Nat) (t X : ByteStr)
    (hval : ¬((decodeRune (c :: t)).1 = 65533 ∧ (decodeRune (c :: t)).2 = 1))
    (hg : 32 ≤ (decodeRune (c :: t)).1 ∧ (decodeRune (c :: t)).1 ≠ 34 ∧
      (decodeRune (c :: t)).1 ≠ 92) :
    decodeJSONBody (f + 1) ((c :: t).take (decodeRune (c :: t)).2 ++ X) =
      (decodeJSONBody f X).map
        (fun p => ((c :: t).take (decodeRune (c :: t)).2 ++ p.1, p.2)) := by
  have hsz1 : 1 ≤ (decodeRune (c :: t)).2 := decodeRune_cons_snd_pos c t
  have hszle : (decodeRune (c :: t)).2 ≤ t.length + 1 := by
    have := decodeRune_snd_le_length (c :: t)
    simpa using this
  have hc3 : ¬c = 34 ∧ ¬c = 92 ∧ ¬c < 32 := by
    rcases Nat.lt_or_ge c 128 with hlt | hge
    · have h1 := decodeRune_one c t hlt
      rw [h1] at hg
      simp at hg
      exact ⟨by omega, by omega, by omega⟩
    · exact ⟨by omega, by omega, by omega⟩
  have hdr : decodeRune ((c :: t).take (decodeRune (c :: t)).2 ++ X) =
      ((decodeRune (c :: t)).1, (decodeRune (c :: t)).2) :=
    decodeRune_take_append rfl hval X
  obtain ⟨sz, hszeq⟩ : ∃ sz, (decodeRune (c :: t)).2 = sz + 1 :=
    ⟨(decodeRune (c :: t)).2 - 1, by omega⟩
  rw [hszeq] at hdr ⊢
  rw [show (c :: t).take (sz + 1) ++ X = c :: (t.take sz ++ X) from rfl]
  rw [decodeJSONBody_cons_eq]
  rw [if_neg hc3.1, if_neg hc3.2.1, if_neg hc3.2.2]
  have hdr2 : decodeRune (c :: (t.take sz ++ X)) =
      ((decodeRune (c :: t)).1, sz + 1) := hdr
  simp only [hdr2]
  rw [if_neg (show ¬((decodeRune (c :: t)).1 = 65533 ∧ sz + 1 = 1) by
    rw [hszeq] at hval
    exact hval)]
  have hszt : sz ≤ t.length := by omega
  have hdrop : (c :: (t.take sz ++ X)).drop (sz + 1) = X := by
    show (t.take sz ++ X).drop sz = X
    exact List.drop_left' (by rw [List.length_take]; omega)
  have htake : (c :: (t.take sz ++ X)).take (sz + 1) = (c :: t).take (sz + 1) := by
    show c :: (t.take sz ++ X).take sz = c :: t.take sz
    rw [List.take_left' (by rw [List.length_take]; omega)]
  rw [hdrop, htake]

theorem decodeJSONBody_escape_step (f : Nat) (c : Nat) (raw X : ByteStr)
    (hc : c < 32 ∨ c = 34 ∨ c = 92) :
    decodeJSONBody (f + 1) (jsonEscape c 1 raw ++ X) =
      (decodeJSONBody f X).map (fun p => (c :: p.1, p.2)) := by
  rcases hc with hlt | rfl | rfl
  · by_cases h8 : c = 8
    · subst h8
      rfl
    · by_cases h12 : c = 12
      · subst h12
        rfl
      · by_cases h10 : c = 10
        · subst h10
          rfl
        · by_cases h13 : c = 13
          · subst h13
            rfl
          · by_cases h9 : c = 9
            · subst h9
              rfl
            · have hj : jsonEscape c 1 raw =
                  [92, 117, 48, 48, hexDigits.getD (c / 16) 0, hexDigits.getD (c % 16) 0] := by
                unfold jsonEscape
                rw [if_neg (by simp; omega), if_neg h8, if_neg h12, if_neg h10, if_neg h13,
                  if_neg h9, if_pos hlt]
              rw [hj]
              have hh : hex4 48 48 (hexDigits.getD (c / 16) 0) (hexDigits.getD (c % 16) 0) =
                  some c := by
                unfold hex4
                rw [show hexVal 48 = some 0 from rfl, hexVal_hexDigits (c / 16) (by omega),
                  hexVal_hexDigits (c % 16) (by omega)]
                show some (0 * 4096 + 0 * 256 + c / 16 * 16 + c % 16) = some c
                exact congrArg some (by omega)
              have hstep : decodeJSONBody (f + 1)
                  (([92, 117, 48, 48, hexDigits.getD (c / 16) 0,
                    hexDigits.getD (c % 16) 0] : ByteStr) ++ X) =
                  (match hex4 48 48 (hexDigits.getD (c / 16) 0) (hexDigits.getD (c % 16) 0) with
                   | none => none
                   | some cp =>
                     if 55296 ≤ cp ∧ cp ≤ 56319 then
                       (match X with
                        | 92 :: 117 :: g1 :: g2 :: g3 :: g4 :: rest2 =>
                          match hex4 g1 g2 g3 g4 with
                          | some lo =>
                            if 56320 ≤ lo ∧ lo ≤ 57343 then
                              (decodeJSONBody f rest2).map
                                (fun p =>
                                  (utf8Encode (65536 + (cp - 55296) * 1024 + (lo - 56320)) ++
                                    p.1, p.2))
                            else none
                          | none => none
                        | _ => none)
                     else if 56320 ≤ cp ∧ cp ≤ 57343 then none
                     else (decodeJSONBody f X).map (fun p => (utf8Encode cp ++ p.1, p.2))) :=
                rfl
              rw [hstep, hh]
              split
              · rename_i heq
                simp at heq
              · rename_i cp heq
                injection heq with heq
                subst heq
                rw [if_neg (by omega), if_neg (by omega), utf8Encode_low (by omega)]
                simp only [List.cons_append, List.nil_append]
  · rfl
  · rfl

theorem jsonEscape_length_pos (r size : Nat) (raw : ByteStr)
    (hc : r < 32 ∨ r = 34 ∨ r = 92) : 1 ≤ (jsonEscape r size raw).length := by
  unfold jsonEscape
  (repeat' split) <;> simp_all <;> omega

theorem decodeJSONBody_enc : ∀ (n : Nat) (s k : ByteStr), s.length ≤ n →
    validUtf8 s = true →
    ∀ fuel : Nat, (appendJSONStringGo s.length s ++ 34 :: k).length ≤ fuel →
    decodeJSONBody fuel (appendJSONStringGo s.length s ++ 34 :: k) = some (s, k)
  | _, [], k, _, _, fuel, hfuel => by
    rcases fuel with _ | f
    · simp [appendJSONStringGo] at hfuel
    · rfl
  | 0, c :: t, k, hn, _, _, _ => by simp at hn
  | n + 1, c :: t, k, hn, hvalid, fuel, hfuel => by
    obtain ⟨hinv, hvrest⟩ := validUtf8_cons hvalid
    have hsz1 : 1 ≤ (decodeRune (c :: t)).2 := decodeRune_cons_snd_pos c t
    have hszle : (decodeRune (c :: t)).2 ≤ t.length + 1 := by
      have := decodeRune_snd_le_length (c :: t)
      simpa using this
    have hlen : (c :: t).length = t.length + 1 := rfl
    have htn : t.length ≤ n := by
      simp at hn
      omega
    have hf1 : 1 ≤ fuel := by
      refine le_trans ?_ hfuel
      simp only [List.length_append, List.length_cons]
      omega
    obtain ⟨f, rfl⟩ : ∃ f, fuel = f + 1 := ⟨fuel - 1, by omega⟩
    rw [hlen, appendJSONStringGo_cons] at hfuel ⊢
    by_cases hg : 32 ≤ (decodeRune (c :: t)).1 ∧ (decodeRune (c :: t)).1 ≠ 34 ∧
        (decodeRune (c :: t)).1 ≠ 92
    · rw [if_pos hg] at hfuel ⊢
      have hcongr : appendJSONStringGo t.length ((c :: t).drop (decodeRune (c :: t)).2) =
          appendJSONStringGo ((c :: t).drop (decodeRune (c :: t)).2).length
            ((c :: t).drop (decodeRune (c :: t)).2) :=
        appendJSONStringGo_congr _ _ _ (by rw [List.length_drop, hlen]; omega) (le_refl _)
      rw [hcongr, List.append_assoc] at hfuel ⊢
      have hfb : (appendJSONStringGo ((c :: t).drop (decodeRune (c :: t)).2).length
          ((c :: t).drop (decodeRune (c :: t)).2) ++ 34 :: k).length ≤ f := by
        rw [List.length_append, List.length_take] at hfuel
        omega
      have IH := decodeJSONBody_enc n ((c :: t).drop (decodeRune (c :: t)).2) k
        (by rw [List.length_drop, hlen]; omega) hvrest f hfb
      rw [decodeJSONBody_plain_step f c t _ hinv hg, IH]
      simp only [Option.map_some']
      rw [List.take_append_drop]
    · rw [if_neg hg] at hfuel ⊢
      have hr : (decodeRune (c :: t)).1 < 32 ∨ (decodeRune (c :: t)).1 = 34 ∨
          (decodeRune (c :: t)).1 = 92 := by omega
      have hrlow : (decodeRune (c :: t)).1 < 128 := by omega
      have hsz : (decodeRune (c :: t)).2 = 1 := by
        rcases decodeRune_snd_cases (c :: t) with h0 | h1 | h2 | h3 | h4
        · omega
        · exact h1
        · have := decodeRune_two_range
            (show decodeRune (c :: t) = ((decodeRune (c :: t)).1, 2) by rw [← h2])
          omega
        · have := decodeRune_three_range
            (show decodeRune (c :: t) = ((decodeRune (c :: t)).1, 3) by rw [← h3])
          omega
        · have := decodeRune_four_range
            (show decodeRune (c :: t) = ((decodeRune (c :: t)).1, 4) by rw [← h4])
          omega
      have hc1 : c = (decodeRune (c :: t)).1 := by
        obtain ⟨t2, he, -⟩ := decodeRune_size_one
          (show decodeRune (c :: t) = ((decodeRune (c :: t)).1, 1) by rw [← hsz])
          (by omega)
        exact (List.cons.inj he).1
      rw [hsz, show (c :: t).drop 1 = t from rfl, ← hc1, List.append_assoc] at hfuel ⊢
      rw [decodeJSONBody_escape_step f c (c :: t) _ (by rw [hc1]; exact hr)]
      have hvt : validUtf8 t = true := by
        rw [hsz] at hvrest
        exact hvrest
      have hfb : (appendJSONStringGo t.length t ++ 34 :: k).length ≤ f := by
        have hjl := jsonEscape_length_pos c 1 (c :: t) (by rw [hc1]; exact hr)
        rw [List.length_append] at hfuel
        omega
      have IH := decodeJSONBody_enc n t k htn hvt f hfb
      rw [IH]
      rfl

/-- C6 counterexample: a string containing a quote, backslash, newline, tab and
NUL byte — plus the invalid UTF-8 byte 255 — is encoded with the 255 copied
verbatim, so the result is not decodable by a standard JSON decoder and the
round-trip fails. -/
theorem appendJSONString_roundtrip_counterexample :
    jsonDecodeString (appendJSONString [] [34, 92, 10, 9, 0, 255]) = none := by decide

/-- C6 (amended): for every valid-UTF-8 byte string — in particular one
containing a double quote, a backslash, a newline, a tab and a NUL byte —
the structured-mode string encoder produces a JSON string literal that a
standard JSON decoder decodes back to exactly the original bytes. -/
theorem appendJSONString_roundtrip (s : ByteStr) (hv : validUtf8 s = true)
    (h34 : 34 ∈ s) (h92 : 92 ∈ s) (h10 : 10 ∈ s) (h9 : 9 ∈ s) (h0 : 0 ∈ s) :
    jsonDecodeString (appendJSONString [] s) = some s := by
  have hb := decodeJSONBody_enc s.length s [] (le_refl _) hv
    ((34 :: (appendJSONStringGo s.length s ++ [34])).length)
    (by simp only [List.length_append, List.length_cons]; omega)
  show jsonDecodeString (34 :: (appendJSONStringGo s.length s ++ [34])) = some s
  rw [show jsonDecodeString (34 :: (appendJSONStringGo s.length s ++ [34])) =
      (match decodeJSONBody ((34 :: (appendJSONStringGo s.length s ++ [34])).length)
          (appendJSONStringGo s.length s ++ [34]) with
       | some (content, []) => some content
       | _ => none) from rfl]
  rw [hb]

/-- C6 witness: the round-trip at a concrete string holding a quote, a
backslash, a newline, a tab and a NUL byte. -/
theorem appendJSONString_roundtrip_witness :
    (validUtf8 [34, 92, 10, 9, 0, 97] = true ∧ 34 ∈ ([34, 92, 10, 9, 0, 97] : ByteStr) ∧
      92 ∈ ([34, 92, 10, 9, 0, 97] : ByteStr) ∧ 10 ∈ ([34, 92, 10, 9, 0, 97] : ByteStr) ∧
      9 ∈ ([34, 92, 10, 9, 0, 97] : ByteStr) ∧ 0 ∈ ([34, 92, 10, 9, 0, 97] : ByteStr)) ∧
    jsonDecodeString (appendJSONString [] [34, 92, 10, 9, 0, 97]) =
      some [34, 92, 10, 9, 0, 97] :=
  ⟨by decide, appendJSONString_roundtrip [34, 92, 10, 9, 0, 97] (by decide) (by decide)
    (by decide) (by decide) (by decide) (by decide)⟩

end Logport
